import Mathlib

/-!
# Verification of `avrogencpp.cc` (Avro C++ code generator)

A shallow embedding of `src/lang/c++/impl/avrogencpp.cc` together with
theorems settling the specification claims about it.

Conventions:
* C++ `std::string` is modelled by `String` (or `List Char` where
  character-level reasoning is needed).
* The possibly-cyclic schema graph is modelled by node identifiers
  (`Nat`) and a total map from identifiers to node definitions;
  node identity in the C++ code is `NodePtr` pointer identity.
* Recursive traversals of the possibly-cyclic graph take an explicit
  fuel argument; `none` means the fuel was exhausted (the C++ code
  recursed at least that deep).
* Fallible C++ code (exceptions, out-of-bounds accesses) is modelled
  with `Option`/`Except`.
-/

namespace Avrogencpp

/-! ## Character utilities

`std::isspace(c, std::locale::classic())` (used by `readGuard`),
`isalpha`/`isdigit`/`toupper` (used by `makeCanonical`), restricted to
the classic (ASCII) locale exactly as the C++ does. -/

/-- `std::isspace` in the classic locale: space, \t, \n, \v, \f, \r. -/
def isSpaceClassic (c : Char) : Bool :=
  c = ' ' || c = '\t' || c = '\n' || c = Char.ofNat 11 || c = Char.ofNat 12 || c = '\r'

/-- One step of `makeCanonical` (avrogencpp.cc lines 298-308): alphabetic
characters are kept (upper-cased when `foldCase`), digits are kept, and
every other character becomes `'_'`. -/
def canonChar (foldCase : Bool) (c : Char) : Char :=
  if c.isAlpha then (if foldCase then c.toUpper else c)
  else if c.isDigit then c
  else '_'

/-- `makeCanonical` (avrogencpp.cc lines 298-308) on the underlying
character list of the string. -/
def makeCanonicalL (s : List Char) (foldCase : Bool) : List Char :=
  s.map (canonChar foldCase)

/-- `makeCanonical` lifted to `String`. -/
def makeCanonical (s : String) (foldCase : Bool) : String :=
  ⟨makeCanonicalL s.data foldCase⟩

/-! ## `decorate` (avrogencpp.cc lines 129-147)

Maps a schema identifier to a safe C++ identifier by appending `_` to
C++ reserved words. -/

/-- The static `cppReservedWords` table (avrogencpp.cc lines 130-141). -/
def cppReservedWords : List String :=
  ["alignas", "alignof", "and", "and_eq", "asm", "auto", "bitand", "bitor", "bool", "break",
   "case", "catch", "char", "char8_t", "char16_t", "char32_t", "class", "compl", "concept",
   "const", "consteval", "constexpr", "constinit", "const_cast", "continue", "co_await", "co_return",
   "co_yield", "decltype", "default", "delete", "do", "double", "dynamic_cast", "else",
   "enum", "explicit", "export", "extern", "false", "float", "for", "friend", "goto", "if",
   "import", "inline", "int", "long", "module", "mutable", "namespace", "new", "noexcept", "not",
   "not_eq", "nullptr", "operator", "or", "or_eq", "private", "protected", "public", "reflexpr",
   "register", "reinterpret_cast", "requires", "return", "short", "signed", "sizeof", "static",
   "static_assert", "static_cast", "struct", "switch", "synchronized", "template", "this",
   "thread_local", "throw", "true", "try", "typedef", "typeid", "typename", "union", "unsigned",
   "using", "virtual", "void", "volatile", "wchar_t", "while", "xor", "xor_eq"]

/-- `decorate` (avrogencpp.cc lines 129-147). -/
def decorate (name : String) : String :=
  if name ∈ cppReservedWords then name ++ "_" else name

/-! ## Injectivity of the decimal printer

`std::to_string(size_t)` is modelled by `Nat.repr` (both produce the
decimal numeral).  Union-name uniqueness (claim C3) and branch-name
collision escaping (claim C7) rest on distinct numbers having distinct
numerals, which we prove here via an explicit evaluation function. -/

/-- Decimal digits of `n`, most significant first (the list underlying
`Nat.repr`). -/
def digitsOf (n : Nat) : List Char :=
  if _h : n < 10 then [Nat.digitChar n]
  else digitsOf (n / 10) ++ [Nat.digitChar (n % 10)]
  decreasing_by exact Nat.div_lt_self (by omega) (by omega)

/-- Numeric value of a decimal digit character. -/
def digitVal (c : Char) : Nat := c.toNat - '0'.toNat

/-- Evaluate a digit string back to a number. -/
def valOfDigits (l : List Char) : Nat :=
  l.foldl (fun a c => 10 * a + digitVal c) 0

/-! ## The schema graph

Nodes of the validated schema tree (`avro::NodePtr`), §3 of the spec.
Node identity (pointer identity of `NodePtr` in the C++ code) is a
`Nat`; a graph assigns every identifier a node (the function is total,
so a run of the embedded generator can fail only by fuel exhaustion).
`symbolic` is `AVRO_SYMBOLIC`: a reference to a named node, resolved by
`resolveSymbol` to the shared identity of the original declaration.
Doc strings (`getDoc`) are modelled as empty, so `generateDocComment`
emits nothing and is elided. -/

inductive Node where
  | primNull
  | primBool
  | primInt
  | primLong
  | primFloat
  | primDouble
  | primString
  | primBytes
  | fixed (name : String) (size : Nat)
  | enum (name : String) (symbols : List String)
  | record (name : String) (fields : List (String × Nat))
  | array (elem : Nat)
  | mapNode (value : Nat)
  | union (branches : List Nat)
  | symbolic (target : Nat)
deriving DecidableEq, Repr

abbrev Graph : Type := Nat → Node

/-- `resolveSymbol` applied as in `generateType`/`generateDeclaration`:
`nn = (n->type() == AVRO_SYMBOLIC) ? resolveSymbol(n) : n`. -/
def resolveId (g : Graph) (n : Nat) : Nat :=
  match g n with
  | .symbolic t => t
  | _ => n

def isUnionNode (g : Graph) (n : Nat) : Bool :=
  match g n with
  | .union _ => true
  | _ => false

def isArrayOfUnion (g : Graph) (n : Nat) : Bool :=
  match g n with
  | .array e => isUnionNode g e
  | _ => false

def isNullNode (g : Graph) (n : Nat) : Bool :=
  match g n with
  | .primNull => true
  | _ => false

/-! ## Generator state

`CodeGen`'s mutable traversal state (lines 92-96) plus the
`UnionCodeTracker` (lines 66-78), created fresh per run.  The output
stream `os_` is modelled as the append-only list `out` of emission
events, one per type-declaration emission site. -/

/-- `PendingSetterGetter` (lines 50-57). -/
structure PendingSG where
  structName : String
  type : String
  name : String
  idx : Nat
deriving DecidableEq, Repr

/-- `PendingConstructor` (lines 59-64). -/
structure PendingCtor where
  structName : String
  memberName : String
  initMember : Bool
deriving DecidableEq, Repr

/-- One output event per type-declaration emission site of the C++
code (`os_ <<` statements of the type-emission phase). -/
inductive Emit where
  /-- `generateEnumType` (lines 157-166): a full `enum class` declaration. -/
  | enumDecl (name : String) (symbols : List String)
  /-- `generateDeclaration`, record case (line 539): `struct X;`. -/
  | forwardStructDecl (name : String)
  /-- `generateRecordType` (lines 256-259): a per-field union typedef. -/
  | typedefUnionField (typeStr fieldName : String)
  /-- `generateRecordType` (lines 261-264): a per-field array-item typedef. -/
  | typedefArrayItem (typeStr fieldName : String)
  /-- `generateRecordType` (lines 252-294): a full `struct` declaration
  with its default-initializing constructor. -/
  | recordDecl (name : String) (fieldTypes : List String) (fieldNames : List String)
  /-- `generateUnionType` (lines 396-453): a full union `struct` with its
  `Branch` enum (deduplicated member names), accessor declarations for
  non-null branches and inline `is_null`/`set_null` for null branches. -/
  | unionDecl (name : String) (branchEnum : List String) (branchTypes : List String)
      (branchNames : List String)
deriving DecidableEq, Repr

structure GenState where
  /-- `map<NodePtr, string> done` (line 95), most recent binding first. -/
  done : List (Nat × String)
  /-- `set<NodePtr> doing` (line 96). -/
  doing : List Nat
  /-- `UnionCodeTracker::unionBranchNameMapping_` (line 69). -/
  unions : List (List String × String)
  /-- `UnionCodeTracker::unionNumber_` (line 68). -/
  unionNumber : Nat
  /-- `pendingGettersAndSetters` (line 92). -/
  pendingGS : List PendingSG
  /-- `pendingConstructors` (line 93). -/
  pendingCtors : List PendingCtor
  /-- The emitted output stream, in emission order. -/
  out : List Emit
deriving DecidableEq, Repr

def initState : GenState := ⟨[], [], [], 0, [], [], []⟩

/-- Association-list lookup (first binding wins, mirroring
`std::map::find` given that insertions shadow at the head). -/
def lookupA {α β : Type} [DecidableEq α] (k : α) : List (α × β) → Option β
  | [] => none
  | (a, b) :: t => if a = k then some b else lookupA k t

/-- `std::set::insert`. -/
def setInsert (n : Nat) (l : List Nat) : List Nat :=
  if n ∈ l then l else n :: l

/-- `std::set::erase`. -/
def eraseA (n : Nat) : List Nat → List Nat
  | [] => []
  | a :: t => if a = n then t else a :: eraseA n t

def emit (e : Emit) (s : GenState) : GenState :=
  { s with out := s.out ++ [e] }

/-! ## Configuration

The constructor arguments of `CodeGen` (lines 116-124).  `inNs` models
`inNamespace_`, which during the type-emission phase is `true` exactly
when the namespace option is nonempty (set once in `generate`, line
830, before `generateType` runs). -/

structure Cfg where
  ns : String
  schemaFile : String
  headerFile : String
  includePref : String
  noUnion : Bool
  guardString : String
  inNs : Bool
deriving Repr

/-- `CodeGen::fullname` (lines 153-155). -/
def fullname (cfg : Cfg) (name : String) : String :=
  if cfg.ns = "" then name else cfg.ns ++ "::" ++ name

/-! ## `UnionCodeTracker` (lines 1025-1054) -/

/-- `string::find_last_of("/\\")`: index of the last slash or
backslash, if any. -/
def lastSlashIdxAux : List Char → Nat → Option Nat → Option Nat
  | [], _, acc => acc
  | c :: t, i, acc =>
    lastSlashIdxAux t (i + 1) (if c = '/' ∨ c = '\\' then some i else acc)

def lastSlashIdx (l : List Char) : Option Nat :=
  lastSlashIdxAux l 0 none

/-- The file-derived base of a fresh union name
(`generateNewUnionName`, lines 1036-1041): the input file name from its
last path separator (inclusive), canonicalized without case folding. -/
def unionNameBase (schemaFile : String) : String :=
  let s := schemaFile.data
  let s :=
    match lastSlashIdx s with
    | some n => s.drop n
    | none => s
  ⟨makeCanonicalL s false⟩

/-- The fresh union name synthesized at counter value `k`
(`generateNewUnionName`, line 1043). -/
def mkUnionName (schemaFile : String) (k : Nat) : String :=
  unionNameBase schemaFile ++ "_Union__" ++ Nat.repr k ++ "__"

/-- `UnionCodeTracker::getExistingUnionName` (lines 1028-1033). -/
def getExistingUnionName (unions : List (List String × String)) (ts : List String) :
    Option String :=
  lookupA ts unions

/-- `UnionCodeTracker::generateNewUnionName` (lines 1035-1046) acting on
the tracker fields of the generator state. -/
def generateNewUnionName (cfg : Cfg) (s : GenState) (ts : List String) : String × GenState :=
  let result := mkUnionName cfg.schemaFile s.unionNumber
  (result,
    { s with
      unionNumber := s.unionNumber + 1
      unions := (ts, result) :: s.unions })

/-! ## `cppTypeOf` and `cppNameOf` (lines 168-237)

Both recurse only through `array`/`map`/`symbolic` nodes; the explicit
fuel is exhausted only on graphs with a cycle not passing through any
named node, which cannot arise from a validated schema.  In the C++
code the union case of `cppTypeOf` reads `done[n]` via
`std::map::operator[]`, which default-inserts an empty string when the
key is absent; in the embedded type-emission phase that case is only
reached with the key present, so the insertion is not modelled. -/

def cppTypeOf (cfg : Cfg) (g : Graph) (done : List (Nat × String)) :
    Nat → Nat → Option String
  | 0, _ => none
  | fuel + 1, n =>
    match g n with
    | .primString => some "std::string"
    | .primBytes => some "std::vector<uint8_t>"
    | .primInt => some "int32_t"
    | .primLong => some "int64_t"
    | .primFloat => some "float"
    | .primDouble => some "double"
    | .primBool => some "bool"
    | .record name _ =>
      some (if cfg.inNs then decorate name else fullname cfg (decorate name))
    | .enum name _ =>
      some (if cfg.inNs then decorate name else fullname cfg (decorate name))
    | .array e => (cppTypeOf cfg g done fuel e).map (fun s => "std::vector<" ++ s ++ " >")
    | .mapNode v =>
      (cppTypeOf cfg g done fuel v).map (fun s => "std::map<std::string, " ++ s ++ " >")
    | .fixed _ size => some ("std::array<uint8_t, " ++ Nat.repr size ++ ">")
    | .symbolic t => cppTypeOf cfg g done fuel t
    | .union _ => some (fullname cfg ((lookupA n done).getD ""))
    | .primNull => some "avro::null"

def cppNameOf (g : Graph) : Nat → Nat → Option String
  | 0, _ => none
  | fuel + 1, n =>
    match g n with
    | .primNull => some "null"
    | .primString => some "string"
    | .primBytes => some "bytes"
    | .primInt => some "int"
    | .primLong => some "long"
    | .primFloat => some "float"
    | .primDouble => some "double"
    | .primBool => some "bool"
    | .record name _ => some (decorate name)
    | .enum name _ => some (decorate name)
    | .fixed name _ => some (decorate name)
    | .array _ => some "array"
    | .mapNode _ => some "map"
    | .symbolic t => cppNameOf g fuel t
    | .union _ => some "$Undefined$"

def cppNamesList (g : Graph) (fuel : Nat) : List Nat → Option (List String)
  | [] => some []
  | n :: ns =>
    match cppNameOf g fuel n with
    | none => none
    | some nm =>
      match cppNamesList g fuel ns with
      | none => none
      | some nms => some (nm :: nms)

/-! ## Branch-enum member naming (lines 405-423)

Within one generated union, each branch's `Branch` enum member is the
decorated branch name; a colliding name gets `_2`, `_3`, ... appended
until it is not already used. -/

/-- The `while` loop of lines 413-417; fuel bounds the number of
iterations (with fuel `used.length + 1` a free name is always found,
see `branchName_not_mem`). -/
def escapeLoop : Nat → List String → String → Nat → String
  | 0, _, bn, p => bn ++ "_" ++ Nat.repr p
  | fuel + 1, used, bn, p =>
    let esc := bn ++ "_" ++ Nat.repr p
    if esc ∈ used then escapeLoop fuel used bn (p + 1) else esc

/-- Lines 408-419: the `Branch` enum member name for branch name `nm`
given already-used names `used`. -/
def branchName (used : List String) (nm : String) : String :=
  let bn := decorate nm
  if bn ∈ used then escapeLoop (used.length + 1) used bn 2 else bn

def branchEnumNamesAux : List String → List String → List String
  | _, [] => []
  | used, nm :: rest =>
    let b := branchName used nm
    b :: branchEnumNamesAux (b :: used) rest

/-- The `Branch` enum member names of a union with branch names
`names`, in branch order (lines 405-423). -/
def branchEnumNames (names : List String) : List String :=
  branchEnumNamesAux [] names

/-! ## Helper passes of `generateRecordType` and `generateUnionType` -/

/-- The typedef pass of `generateRecordType` (lines 254-266), executed
when `noUnion_` is false: rewrites the field type of each union-typed
field to `<fieldName>_t` after emitting the typedef, and emits an
`_item_t` typedef for each array-of-union field.  Note it uses the raw
(undecorated) field name. -/
def recordTypedefPass (g : Graph) :
    List (String × Nat) → List String → GenState → List String × GenState
  | [], _, s => ([], s)
  | _ :: _, [], s => ([], s)
  | (fn, child) :: fs, t :: ts, s =>
    let (t1, s1) :=
      if isUnionNode g child then
        (fn ++ "_t", emit (.typedefUnionField t fn) s)
      else (t, s)
    let s2 :=
      if isArrayOfUnion g child then
        emit (.typedefArrayItem (t1 ++ "::value_type") fn) s1
      else s1
    let (rest, s3) := recordTypedefPass g fs ts s2
    (t1 :: rest, s3)

/-- Lines 428-448: queue a pending getter/setter for every non-null
branch (null branches get inline `is_null`/`set_null` instead, already
part of the `unionDecl` event). -/
def pushPendingAccessors (g : Graph) (result : String) :
    List String → List String → List Nat → Nat → GenState → GenState
  | t :: ts, nm :: nms, b :: bsRest, i, s =>
    let s1 :=
      if isNullNode g b then s
      else { s with pendingGS := s.pendingGS ++ [⟨result, t, nm, i⟩] }
    pushPendingAccessors g result ts nms bsRest (i + 1) s1
  | _, _, _, _, s => s

/-- `generateEnumType` (lines 157-166): emits the full `enum class`
declaration and returns the decorated name.  It does not touch `done`.
Only ever invoked on enum nodes; other nodes fall to a dead default. -/
def generateEnumType (g : Graph) (n : Nat) (s : GenState) : String × GenState :=
  match g n with
  | .enum name symbols =>
    let dn := decorate name
    (dn, emit (.enumDecl dn (symbols.map decorate)) s)
  | _ => ("", s)

/-! ## The type emitter (lines 239-549)

The mutual recursion of `generateType`, `doGenerateType`,
`generateRecordType`, `generateUnionType` and `generateDeclaration`,
with `generateTypeList`/`generateDeclList` standing for the `for`
loops over children.  Every call consumes one unit of fuel; `none`
means the C++ code would have recursed at least that deep. -/

mutual

/-- `CodeGen::generateType` (lines 461-471). -/
def generateType (cfg : Cfg) (g : Graph) : Nat → Nat → GenState → Option (String × GenState)
  | 0, _, _ => none
  | fuel + 1, n, s =>
    let nn := resolveId g n
    match lookupA nn s.done with
    | some r => some (r, s)
    | none =>
      match doGenerateType cfg g fuel nn s with
      | none => none
      | some (r, s1) => some (r, { s1 with done := (nn, r) :: s1.done })
  termination_by structural fuel => fuel

/-- `CodeGen::doGenerateType` (lines 473-519). -/
def doGenerateType (cfg : Cfg) (g : Graph) : Nat → Nat → GenState → Option (String × GenState)
  | 0, _, _ => none
  | fuel + 1, n, s =>
    match g n with
    | .array e =>
      if n ∈ s.doing then
        match generateDeclaration cfg g fuel e s with
        | none => none
        | some (dn, s1) => some ("std::vector<" ++ dn ++ " >", s1)
      else
        match generateType cfg g fuel e { s with doing := setInsert n s.doing } with
        | none => none
        | some (dn, s1) =>
          some ("std::vector<" ++ dn ++ " >", { s1 with doing := eraseA n s1.doing })
    | .mapNode v =>
      if n ∈ s.doing then
        match generateDeclaration cfg g fuel v s with
        | none => none
        | some (dn, s1) => some ("std::map<std::string, " ++ dn ++ " >", s1)
      else
        match generateType cfg g fuel v { s with doing := setInsert n s.doing } with
        | none => none
        | some (dn, s1) =>
          some ("std::map<std::string, " ++ dn ++ " >", { s1 with doing := eraseA n s1.doing })
    | .record _ _ => generateRecordType cfg g fuel n s
    | .enum _ _ => some (generateEnumType g n s)
    | .union _ => generateUnionType cfg g fuel n s
    | .symbolic _ => some ("$Undefined$", s)
    | _ =>
      match cppTypeOf cfg g s.done fuel n with
      | none => none
      | some t => some (t, s)
  termination_by structural fuel => fuel

/-- `CodeGen::generateRecordType` (lines 239-296).  Children are
expanded first; the `done` re-check after the recursion (lines 247-250)
is what prevents a second full emission when a cycle completed this
very record during the recursion. -/
def generateRecordType (cfg : Cfg) (g : Graph) : Nat → Nat → GenState → Option (String × GenState)
  | 0, _, _ => none
  | fuel + 1, n, s =>
    match g n with
    | .record name fields =>
      let decoratedName := decorate name
      match generateTypeList cfg g fuel (fields.map Prod.snd) s with
      | none => none
      | some (types, s1) =>
        match lookupA n s1.done with
        | some r => some (r, s1)
        | none =>
          let (types2, s2) :=
            if cfg.noUnion then (types, s1) else recordTypedefPass g fields types s1
          some (decoratedName,
            emit (.recordDecl decoratedName types2 (fields.map (fun f => decorate f.1))) s2)
    | _ => some ("", s)
  termination_by structural fuel => fuel

/-- `CodeGen::generateUnionType` (lines 365-456).  When the union is
already in `doing` (a re-entrant visit inside its own expansion) branch
types come from `generateDeclaration`; otherwise from `generateType`
with the union held in `doing`.  Branch names (`cppNameOf`) are pure
and collected separately from the single C++ loop. -/
def generateUnionType (cfg : Cfg) (g : Graph) : Nat → Nat → GenState → Option (String × GenState)
  | 0, _, _ => none
  | fuel + 1, n, s =>
    match g n with
    | .union bs =>
      match
        (if n ∈ s.doing then
          generateDeclList cfg g fuel bs s
        else
          match generateTypeList cfg g fuel bs { s with doing := setInsert n s.doing } with
          | none => none
          | some (ts, s1) => some (ts, { s1 with doing := eraseA n s1.doing })) with
      | none => none
      | some (types, s1) =>
        match cppNamesList g (fuel + 1) bs with
        | none => none
        | some names =>
          match lookupA n s1.done with
          | some r => some (r, s1)
          | none =>
            match getExistingUnionName s1.unions types with
            | some ex => some (ex, s1)
            | none =>
              let (result, s2) := generateNewUnionName cfg s1 types
              let s3 := emit (.unionDecl result (branchEnumNames names) types names) s2
              let s4 := pushPendingAccessors g result types names bs 0 s3
              some (result,
                { s4 with
                  pendingCtors :=
                    s4.pendingCtors ++
                      [⟨result, types.headD "", !isNullNode g (bs.headD 0)⟩] })
    | _ => some ("", s)
  termination_by structural fuel => fuel

/-- `CodeGen::generateDeclaration` (lines 521-549): the
declaration-only branch used for re-entrant visits. -/
def generateDeclaration (cfg : Cfg) (g : Graph) : Nat → Nat → GenState → Option (String × GenState)
  | 0, _, _ => none
  | fuel + 1, n, s =>
    let nn := resolveId g n
    match g nn with
    | .array e =>
      match generateDeclaration cfg g fuel e s with
      | none => none
      | some (d, s1) => some ("std::vector<" ++ d ++ " >", s1)
    | .mapNode v =>
      match generateDeclaration cfg g fuel v s with
      | none => none
      | some (d, s1) => some ("std::map<std::string, " ++ d ++ " >", s1)
    | .record _ _ =>
      match cppTypeOf cfg g s.done fuel nn with
      | none => none
      | some t => some (t, emit (.forwardStructDecl t) s)
    | .enum _ _ => some (generateEnumType g nn s)
    | .union _ => generateUnionType cfg g fuel nn s
    | .symbolic _ => some ("$Undefined$", s)
    | _ =>
      match cppTypeOf cfg g s.done fuel nn with
      | none => none
      | some t => some (t, s)
  termination_by structural fuel => fuel

/-- The `for` loop over children calling `generateType` on each. -/
def generateTypeList (cfg : Cfg) (g : Graph) :
    Nat → List Nat → GenState → Option (List String × GenState)
  | 0, _, _ => none
  | _ + 1, [], s => some ([], s)
  | fuel + 1, n :: ns, s =>
    match generateType cfg g fuel n s with
    | none => none
    | some (t, s1) =>
      match generateTypeList cfg g fuel ns s1 with
      | none => none
      | some (ts, s2) => some (t :: ts, s2)
  termination_by structural fuel => fuel

/-- The `for` loop over union branches calling `generateDeclaration`
on each (lines 372-375). -/
def generateDeclList (cfg : Cfg) (g : Graph) :
    Nat → List Nat → GenState → Option (List String × GenState)
  | 0, _, _ => none
  | _ + 1, [], s => some ([], s)
  | fuel + 1, n :: ns, s =>
    match generateDeclaration cfg g fuel n s with
    | none => none
    | some (t, s1) =>
      match generateDeclList cfg g fuel ns s1 with
      | none => none
      | some (ts, s2) => some (t :: ts, s2)
  termination_by structural fuel => fuel

end

/-! ## Semantics of the generated codecs (claims C4, C5, C6)

`generateRecordTraits`, `generateUnionTraits` and `generateEnumTraits`
emit fixed C++ code templates parameterized by the node.  The
definitions below give the runtime meaning of those templates over an
abstract decoder/encoder: the decoder yields one abstract value per
`avro::decode` call (`vals` indexed by a position counter), answers
`fieldOrder()` with its `fo` list, and records the sequence of decoder
operations in `trace`.  Error paths (`throw avro::Exception`) are
`Except.error` with the message of the generated `throw` (messages
assembled from streams in the C++ are abbreviated to their fixed
text). -/

/-- A decoder operation performed by generated record-decode code. -/
inductive DecOp where
  /-- `rd->fieldOrder()` (lines 600, 620). -/
  | fieldOrderOp
  /-- `avro::decode(d, v.<field i>)` (lines 629, 642). -/
  | readFieldOp (i : Nat)
deriving DecidableEq, Repr

/-- The abstract decoder state threaded through generated record
decode code. -/
structure RDecoder (V : Type) where
  /-- The value produced by the `k`-th `avro::decode` call. -/
  vals : Nat → V
  /-- How many `avro::decode` calls have been consumed. -/
  pos : Nat
  /-- The writer-to-reader field-order permutation a resolving decoder
  answers `fieldOrder()` with. -/
  fo : List Nat
  /-- Decoder operations performed so far. -/
  trace : List DecOp

/-- `rd->fieldOrder()`: returns the permutation and advances the
decoder's shared state (recorded in the trace). -/
def fieldOrderCall {V : Type} (d : RDecoder V) : List Nat × RDecoder V :=
  (d.fo, { d with trace := d.trace ++ [.fieldOrderOp] })

/-- `avro::decode(d, v.<field i>)`: consume the next stream value and
store it in field `i`. -/
def decodeFieldInto {V : Type} (d : RDecoder V) (v : List V) (i : Nat) :
    List V × RDecoder V :=
  (v.set i (d.vals d.pos),
    { d with pos := d.pos + 1, trace := d.trace ++ [.readFieldOp i] })

/-- The resolving decode loop emitted at lines 620-635: for each entry
of the field-order permutation, a `switch` decodes into the field with
that index; indices outside `0..c-1` hit the emitted `default: break`
and do nothing. -/
def recordDecodeResolvingLoop {V : Type} (c : Nat) :
    List Nat → List V → RDecoder V → List V × RDecoder V
  | [], v, d => (v, d)
  | i :: rest, v, d =>
    if i < c then
      let (v1, d1) := decodeFieldInto d v i
      recordDecodeResolvingLoop c rest v1 d1
    else
      recordDecodeResolvingLoop c rest v d

/-- The non-resolving decode sequence emitted at lines 638-643: fields
`i, i+1, ...` decoded in declared order (`k` fields remaining). -/
def recordDecodePlainLoop {V : Type} :
    Nat → Nat → List V → RDecoder V → List V × RDecoder V
  | 0, _, v, d => (v, d)
  | k + 1, i, v, d =>
    let (v1, d1) := decodeFieldInto d v i
    recordDecodePlainLoop k (i + 1) v1 d1

/-- The decode function emitted by `generateRecordTraits` for a record
with `c` fields, on field values `v`, given whether the
`dynamic_cast<avro::ResolvingDecoder*>` succeeds (`resolving`).  For
`c = 0` the specialized template of lines 594-605 is emitted (the
resolving branch still calls `fieldOrder()` and discards the result);
otherwise the template of lines 617-645. -/
def recordDecode {V : Type} (c : Nat) (resolving : Bool) (v : List V) (d : RDecoder V) :
    List V × RDecoder V :=
  if c = 0 then
    if resolving then (v, (fieldOrderCall d).2) else (v, d)
  else
    if resolving then
      let (fo, d1) := fieldOrderCall d
      recordDecodeResolvingLoop c fo v d1
    else
      recordDecodePlainLoop c 0 v d

/-- The encode function emitted by `generateRecordTraits` (lines
607-615): one `avro::encode(e, v.<field i>)` per field in declared
order.  The result is the encoder trace: which field index was written
with which value, in order. -/
def recordEncodeAux {V : Type} : List V → Nat → List (Nat × V)
  | [], _ => []
  | x :: xs, i => (i, x) :: recordEncodeAux xs (i + 1)

def recordEncode {V : Type} (v : List V) : List (Nat × V) :=
  recordEncodeAux v 0

/-- The value of a generated union struct: `idx_` and `value_` (the
`std::any`, empty after `set_null`). -/
structure UVal (V : Type) where
  idx : Nat
  val : Option V
deriving DecidableEq, Repr

/-- A decoder operation performed by generated union-decode code. -/
inductive UOp (V : Type) where
  /-- `d.decodeUnionIndex()` returning `n` (line 683). -/
  | decodeUnionIndexOp (n : Nat)
  /-- `d.decodeNull()` (line 692). -/
  | decodeNullOp
  /-- `avro::decode(d, vv)` for the payload of branch `i` (line 697). -/
  | decodeBranchOp (i : Nat) (x : V)
deriving DecidableEq, Repr

/-- An encoder token written by generated union-encode code. -/
inductive UEncTok (V : Type) where
  /-- `e.encodeUnionIndex(v.idx())` (line 665). -/
  | unionIndexTok (n : Nat)
  /-- `e.encodeNull()` (line 672). -/
  | nullTok
  /-- `avro::encode(e, v.get_<branch i>())` (line 674). -/
  | payloadTok (i : Nat) (x : Option V)
deriving DecidableEq, Repr

/-- The decode function emitted by `generateUnionTraits` (lines
682-704) for a union whose branches are described by `branches`
(`true` = the null branch), when the decoder answers
`decodeUnionIndex()` with `tag` and the payload decode of the selected
branch yields `payload`.  A tag at or beyond the branch count throws
before anything is stored; the null branch stores the empty value
after `decodeNull()`; any other branch stores the decoded payload. -/
def unionDecode {V : Type} (branches : List Bool) (tag : Nat) (payload : V) :
    Except String (UVal V × List (UOp V)) :=
  if branches.length ≤ tag then .error "Union index too big"
  else if branches.getD tag false then
    .ok ({ idx := tag, val := none }, [.decodeUnionIndexOp tag, .decodeNullOp])
  else
    .ok ({ idx := tag, val := some payload },
      [.decodeUnionIndexOp tag, .decodeBranchOp tag payload])

/-- The encode function emitted by `generateUnionTraits` (lines
663-681): the 0-based tag is written first; then the `switch` over
`v.idx()` writes the null marker or delegates to the branch codec (an
out-of-range `idx_` falls through the switch and writes nothing
more). -/
def unionEncode {V : Type} (branches : List Bool) (v : UVal V) : List (UEncTok V) :=
  .unionIndexTok v.idx ::
    (if v.idx < branches.length then
      (if branches.getD v.idx false then [.nullTok] else [.payloadTok v.idx v.val])
    else [])

/-- The encode function emitted by `generateEnumTraits` (lines
560-570) for an enumeration with the given symbols; enumeration values
are their 0-based ordinals and the last valid ordinal is
`symbols.length - 1`.  On success the ordinal is passed to
`e.encodeEnum`. -/
def enumEncode (symbols : List String) (v : Nat) : Except String Nat :=
  if symbols.length - 1 < v then
    .error "enum value is out of bound and cannot be encoded"
  else .ok v

/-- The decode function emitted by `generateEnumTraits` (lines
571-581): `d.decodeEnum()` yields `index`; an ordinal beyond the last
symbol throws, otherwise the value with that ordinal is produced. -/
def enumDecode (symbols : List String) (index : Nat) : Except String Nat :=
  if symbols.length - 1 < index then
    .error "enum value is out of bound and cannot be decoded"
  else .ok index

/-! ## `readGuard` and include-guard selection (claim C8)

`readGuard` (lines 865-891) scans the existing output file line by
line (lines are modelled as `List Char`, one entry per `std::getline`
result).  `CodeGen::guard` (lines 805-809) synthesizes a fresh token
from the canonicalized header-file name and a `std::mt19937` draw
(modelled as a parameter).  `generate` (line 815) uses the scanned
token when nonempty, the fresh one otherwise. -/

/-- The whitespace trimming of lines 870-877. -/
def trimLine (l : List Char) : List Char :=
  (((l.dropWhile isSpaceClassic).reverse.dropWhile isSpaceClassic)).reverse

def ifndefPat : List Char := "#ifndef ".data

def definePat : List Char := "#define ".data

/-- The scan loop of lines 869-889.  `cand` is `candidate`: set by the
first `#ifndef ` line seen while empty; while nonempty, a matching
`#define ` line ends the scan with success, a non-matching `#define `
line is skipped, and any other line (blank lines included) clears the
candidate.  The candidate is returned at end of file even without a
matching `#define`. -/
def readGuardLoop : List (List Char) → List Char → List Char
  | [], cand => cand
  | l :: ls, cand =>
    let buf := trimLine l
    if cand = [] then
      if buf.take 8 = ifndefPat then readGuardLoop ls (buf.drop 8)
      else readGuardLoop ls cand
    else
      if buf.take 8 = definePat then
        (if buf.drop 8 = cand then cand else readGuardLoop ls cand)
      else readGuardLoop ls []

/-- `readGuard` (lines 865-891) on the file's lines. -/
def readGuard (fileLines : List (List Char)) : List Char :=
  readGuardLoop fileLines []

/-- `CodeGen::guard` (lines 805-809): the fresh token for header file
`headerFile` when the random engine yields `r`. -/
def guardToken (headerFile : String) (r : Nat) : String :=
  makeCanonical headerFile true ++ "_" ++ Nat.repr r ++ "_H"

/-- Line 815 of `generate`: use the guard string read from the
existing file when nonempty, else the fresh token. -/
def chosenGuard (guardString : String) (fresh : String) : String :=
  if guardString = "" then fresh else guardString

/-! ## Command line handling (claims C9, C10)

`ProgramOptions` (lines 893-901), `parseArgs` (lines 914-963) and the
decision structure of `main` (lines 965-1023).  `main`'s outcome is
abstracted to which exit path is taken; actual file/stream I/O and the
schema compilation are out of scope. -/

structure ProgramOptions where
  helpRequested : Bool
  versionRequested : Bool
  noUnionTypedef : Bool
  includePref : String
  nameSpace : String
  inputFile : String
  outputFile : String
deriving DecidableEq, Repr

/-- The member initializers of `ProgramOptions` (lines 894-900):
`includePrefix` defaults to `"avro"`, everything else is empty/false. -/
def defaultOptions : ProgramOptions :=
  ⟨false, false, false, "avro", "", "", ""⟩

/-- `parseArgs` (lines 914-963).  `none` models a `false` return
(unknown option or missing option value), after which `main` prints
usage and exits 1.  `-h`/`--help` and `-V`/`--version` return
immediately without touching the remaining arguments. -/
def parseArgs : List String → ProgramOptions → Option ProgramOptions
  | [], opts => some opts
  | arg :: rest, opts =>
    if arg = "-h" ∨ arg = "--help" then some { opts with helpRequested := true }
    else if arg = "-V" ∨ arg = "--version" then some { opts with versionRequested := true }
    else if arg = "-U" ∨ arg = "--no-union-typedef" then
      parseArgs rest { opts with noUnionTypedef := true }
    else if arg = "-p" ∨ arg = "--include-prefix" then
      match rest with
      | v :: rest2 => parseArgs rest2 { opts with includePref := v }
      | [] => none
    else if arg = "-n" ∨ arg = "--namespace" then
      match rest with
      | v :: rest2 => parseArgs rest2 { opts with nameSpace := v }
      | [] => none
    else if arg = "-i" ∨ arg = "--input" then
      match rest with
      | v :: rest2 => parseArgs rest2 { opts with inputFile := v }
      | [] => none
    else if arg = "-o" ∨ arg = "--output" then
      match rest with
      | v :: rest2 => parseArgs rest2 { opts with outputFile := v }
      | [] => none
    else none

/-- The include-prefix normalization of lines 994-998.  `"-"` clears
the prefix; otherwise `*incPrefix.rbegin()` is dereferenced — an
out-of-bounds access (`none`) when the string is empty — and a
trailing `/` is appended unless already present. -/
def normalizeIncludePref (s : String) : Option String :=
  if s = "-" then some ""
  else
    match s.data.getLast? with
    | none => none
    | some c => some (if c = '/' then s else s ++ "/")

/-- Which exit path `main` (lines 965-1023) takes. -/
inductive MainOutcome where
  /-- `parseArgs` failed: usage, exit 1 (lines 967-970). -/
  | usageError
  /-- `-h`: usage, exit 0 (lines 972-975). -/
  | helpShown
  /-- `-V`: version, exit 0 (lines 977-980). -/
  | versionShown
  /-- Missing input or output file: "Input and output files are
  required.", usage, exit 1 (lines 982-986). -/
  | missingFiles
  /-- The undefined behavior of line 996 on an empty include prefix. -/
  | outOfBounds
  /-- Generation proceeds (lines 1000-1017): schema read from the
  input file, code written to the output file; exit 0 unless schema
  compilation throws. -/
  | run (input output nameSpace incPref : String) (noUnion : Bool)
deriving DecidableEq, Repr

/-- The decision structure of `main` (lines 965-1023). -/
def mainOutcome (args : List String) : MainOutcome :=
  match parseArgs args defaultOptions with
  | none => .usageError
  | some opts =>
    if opts.helpRequested then .helpShown
    else if opts.versionRequested then .versionShown
    else if opts.inputFile = "" ∨ opts.outputFile = "" then .missingFiles
    else
      match normalizeIncludePref opts.includePref with
      | none => .outOfBounds
      | some p =>
        .run opts.inputFile opts.outputFile opts.nameSpace p opts.noUnionTypedef

/-! ## Concrete schema graphs used to settle claims -/

/-- A default configuration: no namespace, input file `test.avsc`,
output header `out.hh`. -/
def cfgTest : Cfg := ⟨"", "test.avsc", "out.hh", "avro/", false, "", false⟩

/-- Schema `{"type":"record","name":"R","fields":[{"name":"f","type":
[{"type":"enum","name":"E","symbols":["A"]},"R"]}]}`: a record whose
single field is a union of an inline enum and the record itself.  Node
3 is the symbolic reference back to `R`. -/
def graphRecUnionEnum : Graph
  | 0 => .record "R" [("f", 1)]
  | 1 => .union [2, 3]
  | 2 => .enum "E" ["A"]
  | 3 => .symbolic 0
  | _ => .primNull

/-- Schema `{"type":"record","name":"R","fields":[{"name":"f","type":
"R"}]}`: a record whose field is directly of its own type (a valid
Avro schema; its only cycle passes through the named record `R`). -/
def graphSelfRecord : Graph
  | 0 => .record "R" [("f", 1)]
  | 1 => .symbolic 0
  | _ => .primNull

/-- The spec §8 example: a record containing an array of itself. -/
def graphSelfArray : Graph
  | 0 => .record "Node" [("children", 1)]
  | 1 => .array 2
  | 2 => .symbolic 0
  | _ => .primNull

/-- A union of two records that share the simple name `Foo` (they have
distinct Avro full names via different namespaces, which is legal in
one union; `cppNameOf` only uses the simple name). -/
def graphUnionTwoFoo : Graph
  | 0 => .union [1, 2]
  | 1 => .record "Foo" []
  | 2 => .record "Foo" []
  | _ => .primNull

/-- A union of `int` and `string` (the spec §8 example pair). -/
def graphIntStringUnion : Graph
  | 0 => .union [1, 2]
  | 1 => .primInt
  | 2 => .primString
  | _ => .primNull

/-- A generator state in which both branches of
`graphIntStringUnion`'s union are already memoized and one union with
key `["int32_t", "std::string"]` has already been registered — the
situation of a second, structurally identical union occurrence. -/
def stateC3 : GenState :=
  { initState with
    done := [(1, "int32_t"), (2, "std::string")]
    unions := [(["int32_t", "std::string"], mkUnionName "test.avsc" 0)]
    unionNumber := 1 }

/-- A concrete resolving decoder for the claim C4 witness: stream
values `100, 101, 102, ...` and field-order permutation `[2, 0, 1]`
(the spec §8 example `[c, a, b]` for fields `[a, b, c]`). -/
def dC4 : RDecoder Nat := ⟨fun k => 100 + k, 0, [2, 0, 1], []⟩

/-- Number of full `enum class` declarations with the given name in an
output stream. -/
def countEnumDecls (name : String) (l : List Emit) : Nat :=
  (l.filter (fun e =>
    match e with
    | .enumDecl nm _ => nm = name
    | _ => false)).length

/-- Number of full `struct` (record) declarations with the given name. -/
def countRecordDecls (name : String) (l : List Emit) : Nat :=
  (l.filter (fun e =>
    match e with
    | .recordDecl nm _ _ => nm = name
    | _ => false)).length

/-! # Theorems -/

/-! ## Decimal numerals -/

theorem digitVal_digitChar (k : Nat) (h : k < 10) : digitVal (Nat.digitChar k) = k := by
  interval_cases k <;> decide

theorem toDigitsCore_eq_digitsOf (f : Nat) :
    ∀ n acc, n < f → Nat.toDigitsCore 10 f n acc = digitsOf n ++ acc := by
  induction f with
  | zero => intro n acc h; omega
  | succ f ih =>
    intro n acc h
    rw [Nat.toDigitsCore]
    by_cases h10 : n < 10
    · have hdiv : n / 10 = 0 := Nat.div_eq_of_lt h10
      simp only [hdiv, if_pos rfl]
      rw [digitsOf]
      simp [h10, Nat.mod_eq_of_lt h10]
    · have hdiv : n / 10 ≠ 0 := by
        have h1 : 1 ≤ n / 10 := (Nat.le_div_iff_mul_le (by omega)).2 (by omega)
        omega
      simp only [if_neg hdiv]
      rw [ih (n / 10) _ (by
        have : n / 10 < n := Nat.div_lt_self (by omega) (by omega)
        omega)]
      conv_rhs => rw [digitsOf]
      simp [h10]

theorem valOfDigits_digitsOf (n : Nat) : valOfDigits (digitsOf n) = n := by
  induction n using Nat.strong_induction_on with
  | _ n ih =>
    rw [digitsOf]
    by_cases h : n < 10
    · simp only [dif_pos h]
      simp [valOfDigits, digitVal_digitChar n h]
    · simp only [dif_neg h]
      have hlt : n / 10 < n := Nat.div_lt_self (by omega) (by omega)
      have := ih (n / 10) hlt
      simp only [valOfDigits, List.foldl_append, List.foldl_cons, List.foldl_nil] at *
      rw [this, digitVal_digitChar _ (Nat.mod_lt n (by omega))]
      omega

theorem natRepr_inj {m n : Nat} (h : Nat.repr m = Nat.repr n) : m = n := by
  have hd : digitsOf m = digitsOf n := by
    have : (Nat.toDigits 10 m) = (Nat.toDigits 10 n) := by
      have := congrArg String.data h
      simpa [Nat.repr, List.asString] using this
    rw [Nat.toDigits, Nat.toDigits,
      toDigitsCore_eq_digitsOf (m + 1) m [] (by omega),
      toDigitsCore_eq_digitsOf (n + 1) n [] (by omega)] at this
    simpa using this
  have := congrArg valOfDigits hd
  rwa [valOfDigits_digitsOf, valOfDigits_digitsOf] at this

/-! ## Non-termination of `doGenerateType` on a directly self-referential
record (claim C2)

The visitation guard `doing` is only consulted for array, map and union
nodes; record nodes are re-expanded unconditionally, so a record whose
field refers directly back to itself recurses forever.  We show that the
embedded traversal exhausts every fuel bound. -/

theorem selfRecord_diverges_aux :
    ∀ fuel : Nat, ∀ s : GenState, lookupA 0 s.done = none →
      generateType cfgTest graphSelfRecord fuel 0 s = none ∧
      doGenerateType cfgTest graphSelfRecord fuel 0 s = none ∧
      generateRecordType cfgTest graphSelfRecord fuel 0 s = none ∧
      generateTypeList cfgTest graphSelfRecord fuel [1] s = none ∧
      generateType cfgTest graphSelfRecord fuel 1 s = none := by
  intro fuel
  induction fuel with
  | zero =>
    intro s _
    refine ⟨?_, ?_, ?_, ?_, ?_⟩ <;>
      simp only [generateType, doGenerateType, generateRecordType, generateTypeList]
  | succ f ih =>
    intro s h
    refine ⟨?_, ?_, ?_, ?_, ?_⟩
    · simp only [generateType, resolveId, graphSelfRecord, h, (ih s h).2.1]
    · simp only [doGenerateType, graphSelfRecord, (ih s h).2.2.1]
    · simp only [generateRecordType, graphSelfRecord, List.map, (ih s h).2.2.2.1]
    · simp only [generateTypeList, (ih s h).2.2.2.2]
    · simp only [generateType, resolveId, graphSelfRecord, h, (ih s h).2.1]

/-- C1: the spec claims exactly one type declaration is emitted per
distinct named-type node identity.  The code violates this: for the
schema `record R { f: union[enum E, R] }` the re-entrant visit of the
union takes the `generateDeclaration` branch, whose enum case (line
542) re-emits the full `enum class E` declaration even though
`generateType` had already emitted it, so the single identity `E`
receives two declarations (the generated header would not compile).
The record `R` itself is declared exactly once. -/
theorem claim_C1 :
    (generateType cfgTest graphRecUnionEnum 100 0 initState).map
      (fun p => (countEnumDecls "E" p.2.out, countRecordDecls "R" p.2.out)) =
      some (2, 1) := by
  decide

/-- C2: the spec claims `generateType` terminates on every schema graph
whose cycles all pass through a named node.  The code violates this:
the `doing` guard covers only array, map and union nodes, so the valid
schema `record R { f: R }` (its only cycle passes through the named
record `R`) recurses forever — the embedded traversal exhausts every
fuel bound.  The spec's own example, a record containing an array of
itself, does terminate with exactly one full record declaration. -/
theorem claim_C2 :
    (∀ fuel : Nat, generateType cfgTest graphSelfRecord fuel 0 initState = none) ∧
    (generateType cfgTest graphSelfArray 100 0 initState).map
      (fun p => countRecordDecls "Node" p.2.out) = some 1 := by
  refine ⟨fun fuel => (selfRecord_diverges_aux fuel initState rfl).1, ?_⟩
  decide

/-! ## Branch-enum member names are collision-free (claim C7)

The numeric-suffix escape of lines 408-419 applies to the `Branch`
enum member names.  We prove the resulting names within one union are
pairwise distinct; the accessor (getter/setter) names, by contrast,
use the raw branch names (lines 442-446) and can collide. -/

theorem string_data_inj {x y : String} (h : x.data = y.data) : x = y := by
  cases x
  cases y
  exact congrArg String.mk (by simpa using h)

theorem string_append_cancel_left {a x y : String} (h : a ++ x = a ++ y) : x = y := by
  apply string_data_inj
  have hd : a.data ++ x.data = a.data ++ y.data := congrArg String.data h
  exact List.append_cancel_left hd

theorem suffixName_inj (bn : String) {p q : Nat}
    (h : bn ++ "_" ++ Nat.repr p = bn ++ "_" ++ Nat.repr q) : p = q :=
  natRepr_inj (string_append_cancel_left (a := bn ++ "_") h)

theorem exists_mem_not_mem_of_length_lt {α : Type} [DecidableEq α] (c : List α) :
    ∀ l : List α, c.Nodup → l.length < c.length → ∃ x ∈ c, x ∉ l := by
  induction c with
  | nil => intro l _ h; simp at h
  | cons a c ih =>
    intro l hnd h
    by_cases ha : a ∈ l
    · obtain ⟨x, hxc, hxl⟩ :=
        ih (l.erase a) (List.Nodup.of_cons hnd)
          (by
            rw [List.length_erase_of_mem ha]
            have hlp := List.length_pos_of_mem ha
            simp only [List.length_cons] at h
            omega)
      refine ⟨x, List.mem_cons_of_mem _ hxc, fun hx2 => hxl ?_⟩
      have hxa : x ≠ a := by
        intro he
        exact (List.nodup_cons.1 hnd).1 (he ▸ hxc)
      exact (List.mem_erase_of_ne hxa).2 hx2
    · exact ⟨a, List.mem_cons_self a c, ha⟩

theorem escapeLoop_not_mem :
    ∀ fuel used bn p,
      (∃ q, p ≤ q ∧ q < p + fuel ∧ (bn ++ "_" ++ Nat.repr q) ∉ used) →
      escapeLoop fuel used bn p ∉ used := by
  intro fuel
  induction fuel with
  | zero =>
    intro used bn p h
    obtain ⟨q, h1, h2, _⟩ := h
    omega
  | succ f ih =>
    intro used bn p h
    obtain ⟨q, h1, h2, h3⟩ := h
    by_cases hm : (bn ++ "_" ++ Nat.repr p) ∈ used
    · simp only [escapeLoop, if_pos hm]
      apply ih
      have hqp : q ≠ p := fun he => h3 (he ▸ hm)
      exact ⟨q, by omega, by omega, h3⟩
    · simp only [escapeLoop, if_neg hm]
      exact hm

theorem branchName_not_mem (used : List String) (nm : String) :
    branchName used nm ∉ used := by
  unfold branchName
  by_cases h : decorate nm ∈ used
  · simp only [if_pos h]
    apply escapeLoop_not_mem
    have hinj : Function.Injective (fun i : Nat => decorate nm ++ "_" ++ Nat.repr (2 + i)) := by
      intro i j hij
      have := suffixName_inj (decorate nm) hij
      omega
    have hnd : ((List.range (used.length + 1)).map
        (fun i => decorate nm ++ "_" ++ Nat.repr (2 + i))).Nodup :=
      (List.nodup_range _).map hinj
    have hlen : used.length <
        ((List.range (used.length + 1)).map
          (fun i => decorate nm ++ "_" ++ Nat.repr (2 + i))).length := by
      simp
    obtain ⟨x, hxc, hxu⟩ := exists_mem_not_mem_of_length_lt _ used hnd hlen
    obtain ⟨i, hi, rfl⟩ := List.mem_map.1 hxc
    exact ⟨2 + i, by omega, by have := List.mem_range.1 hi; omega, hxu⟩
  · simp only [if_neg h]
    exact h

theorem branchEnumNamesAux_nodup :
    ∀ (names used : List String),
      (branchEnumNamesAux used names).Nodup ∧
      ∀ x ∈ branchEnumNamesAux used names, x ∉ used := by
  intro names
  induction names with
  | nil =>
    intro used
    simp [branchEnumNamesAux]
  | cons nm rest ih =>
    intro used
    simp only [branchEnumNamesAux]
    obtain ⟨hnd, hmem⟩ := ih (branchName used nm :: used)
    refine ⟨List.nodup_cons.2 ⟨fun hc => hmem _ hc (List.mem_cons_self _ _), hnd⟩, ?_⟩
    intro x hx
    rcases List.mem_cons.1 hx with rfl | hx'
    · exact branchName_not_mem used nm
    · intro hxu
      exact hmem x hx' (List.mem_cons_of_mem _ hxu)

theorem branchEnumNamesAux_length :
    ∀ (names used : List String),
      (branchEnumNamesAux used names).length = names.length := by
  intro names
  induction names with
  | nil => intro used; rfl
  | cons nm rest ih =>
    intro used
    simp [branchEnumNamesAux, ih]

/-- C7 (amended): the per-branch name derived from the branch type and
deduplicated with an incrementing numeric suffix is the `Branch` enum
member name, one per branch; within one union these are pairwise
distinct.  (The accessor names are the raw branch names and can
collide, see the counterexample.) -/
theorem claim_C7 (names : List String) :
    (branchEnumNames names).Nodup ∧ (branchEnumNames names).length = names.length :=
  ⟨(branchEnumNamesAux_nodup names []).1, branchEnumNamesAux_length names []⟩

/-- C7 counterexample: for a union of two records with simple name
`Foo` (legal: their Avro full names differ by namespace), both branches
of the single generated union struct receive the accessor name `Foo`
(`get_Foo`/`set_Foo`), i.e. the accessor names collide — the numeric
suffix is applied only to the `Branch` enum member names, which come
out as `Foo` and `Foo_2`. -/
theorem claim_C7_counterexample :
    (generateType cfgTest graphUnionTwoFoo 100 0 initState).map
      (fun p => (p.2.pendingGS.map (fun q => (q.structName, q.name)),
        p.2.out.filter (fun e =>
          match e with
          | .unionDecl _ _ _ _ => true
          | _ => false))) =
      some ([("test_avsc_Union__0__", "Foo"), ("test_avsc_Union__0__", "Foo")],
        [.unionDecl "test_avsc_Union__0__" ["Foo", "Foo_2"] ["Foo", "Foo"] ["Foo", "Foo"]]) := by
  decide

/-! ## Union deduplication and fresh-name uniqueness (claim C3) -/

theorem lookupA_mem_snd {α β : Type} [DecidableEq α] {k : α} {v : β} :
    ∀ l : List (α × β), lookupA k l = some v → v ∈ l.map Prod.snd := by
  intro l
  induction l with
  | nil => intro h; simp [lookupA] at h
  | cons p t ih =>
    intro h
    obtain ⟨a, b⟩ := p
    simp only [lookupA] at h
    by_cases ha : a = k
    · rw [if_pos ha] at h
      simp only [Option.some.injEq] at h
      simp [h]
    · rw [if_neg ha] at h
      simp [ih h]

theorem eraseA_setInsert {n : Nat} {l : List Nat} (h : n ∉ l) :
    eraseA n (setInsert n l) = l := by
  simp [setInsert, h, eraseA]

/-- `pushPendingAccessors` only appends to `pendingGS`. -/
theorem pushPendingAccessors_fields (g : Graph) (r : String) :
    ∀ (ts nms : List String) (bs : List Nat) (i : Nat) (s : GenState),
      (pushPendingAccessors g r ts nms bs i s).done = s.done ∧
      (pushPendingAccessors g r ts nms bs i s).doing = s.doing ∧
      (pushPendingAccessors g r ts nms bs i s).unions = s.unions ∧
      (pushPendingAccessors g r ts nms bs i s).unionNumber = s.unionNumber ∧
      (pushPendingAccessors g r ts nms bs i s).pendingCtors = s.pendingCtors ∧
      (pushPendingAccessors g r ts nms bs i s).out = s.out := by
  intro ts
  induction ts with
  | nil =>
    intro nms bs i s
    cases nms <;> cases bs <;> simp [pushPendingAccessors]
  | cons t ts ih =>
    intro nms bs i s
    cases nms with
    | nil => cases bs <;> simp [pushPendingAccessors]
    | cons nm nms =>
      cases bs with
      | nil => simp [pushPendingAccessors]
      | cons b bs =>
        simp only [pushPendingAccessors]
        by_cases hb : isNullNode g b
        · simpa [hb] using ih nms bs (i + 1) _
        · simpa [hb] using ih nms bs (i + 1) _

/-- `generateType` on an already-memoized identity returns the stored
name with no state change; hence a loop over memoized children returns
the stored names with no state change. -/
theorem generateTypeList_all_done (cfg : Cfg) (g : Graph) :
    ∀ (ids : List Nat) (fuel : Nat) (s : GenState),
      ids.length < fuel →
      (∀ i ∈ ids, (lookupA (resolveId g i) s.done).isSome) →
      generateTypeList cfg g fuel ids s =
        some (ids.map (fun i => (lookupA (resolveId g i) s.done).getD ""), s) := by
  intro ids
  induction ids with
  | nil =>
    intro fuel s hf _
    cases fuel with
    | zero => omega
    | succ f => simp [generateTypeList]
  | cons i ids ih =>
    intro fuel s hf hdone
    cases fuel with
    | zero => omega
    | succ f =>
      cases f with
      | zero => simp at hf
      | succ f2 =>
        obtain ⟨r, hr⟩ :=
          Option.isSome_iff_exists.1 (hdone i (List.mem_cons_self i ids))
        simp only [generateTypeList, generateType, hr]
        rw [ih (f2 + 1) s (by simp at hf; omega)
          (fun j hj => hdone j (List.mem_cons_of_mem _ hj))]
        simp [hr]

theorem mkUnionName_inj {file : String} {a b : Nat}
    (h : mkUnionName file a = mkUnionName file b) : a = b := by
  have hd := congrArg String.data h
  simp only [mkUnionName] at hd
  have hd2 :
      (unionNameBase file ++ "_Union__").data ++
        ((Nat.repr a).data ++ "__".data) =
      (unionNameBase file ++ "_Union__").data ++
        ((Nat.repr b).data ++ "__".data) := by
    simpa [List.append_assoc] using hd
  have h3 := List.append_cancel_left hd2
  have h4 : (Nat.repr a).data = (Nat.repr b).data := List.append_cancel_right h3
  exact natRepr_inj (string_data_inj h4)

/-- The union-registry run invariant: every registered name was issued
at a counter value below the current one. -/
def TrackerInv (file : String) (s : GenState) : Prop :=
  ∀ p ∈ s.unions, ∃ j, j < s.unionNumber ∧ p.2 = mkUnionName file j

theorem mkUnionName_fresh {file : String} {s : GenState} (hInv : TrackerInv file s) :
    mkUnionName file s.unionNumber ∉ s.unions.map Prod.snd := by
  intro hmem
  obtain ⟨p, hp, he⟩ := List.mem_map.1 hmem
  obtain ⟨j, hj, hpe⟩ := hInv p hp
  rw [hpe] at he
  have := mkUnionName_inj he
  omega

/-- C3: union-shape deduplication and fresh-name uniqueness.  For a
union node whose branch types are already memoized (the situation of a
second occurrence of a union shape), with the registry invariant
holding: (1) if the ordered branch-type sequence is already registered,
`generateUnionType` returns the previously generated name with the
state completely unchanged — no declaration is emitted and nothing is
registered; (2) otherwise the fresh name is the input-file identifier
base plus the current counter value, the counter increments, exactly
one union declaration is emitted, and the fresh name differs from every
previously issued union name (in particular from the name of the same
branch types in any other order, which form a different key). -/
theorem claim_C3 (cfg : Cfg) (g : Graph) (n : Nat) (bs : List Nat) (fuel : Nat)
    (s : GenState) (names : List String)
    (hnode : g n = .union bs)
    (hdoing : n ∉ s.doing)
    (hndone : lookupA n s.done = none)
    (hbranches : ∀ b ∈ bs, (lookupA (resolveId g b) s.done).isSome)
    (hfuel : bs.length < fuel)
    (hnames : cppNamesList g (fuel + 1) bs = some names)
    (hInv : TrackerInv cfg.schemaFile s) :
    (∀ nm, getExistingUnionName s.unions
        (bs.map (fun b => (lookupA (resolveId g b) s.done).getD "")) = some nm →
      generateUnionType cfg g (fuel + 1) n s = some (nm, s)) ∧
    (getExistingUnionName s.unions
        (bs.map (fun b => (lookupA (resolveId g b) s.done).getD "")) = none →
      ∃ s' : GenState,
        generateUnionType cfg g (fuel + 1) n s =
          some (mkUnionName cfg.schemaFile s.unionNumber, s') ∧
        s'.unions = ((bs.map (fun b => (lookupA (resolveId g b) s.done).getD "")),
          mkUnionName cfg.schemaFile s.unionNumber) :: s.unions ∧
        s'.unionNumber = s.unionNumber + 1 ∧
        s'.out = s.out ++
          [.unionDecl (mkUnionName cfg.schemaFile s.unionNumber)
            (branchEnumNames names)
            (bs.map (fun b => (lookupA (resolveId g b) s.done).getD "")) names] ∧
        mkUnionName cfg.schemaFile s.unionNumber ∉ s.unions.map Prod.snd ∧
        (∀ ts' nm', lookupA ts' s.unions = some nm' →
          mkUnionName cfg.schemaFile s.unionNumber ≠ nm')) := by
  have hlist := generateTypeList_all_done cfg g bs fuel
    { s with doing := setInsert n s.doing } hfuel hbranches
  have hstate :
      ({ { s with doing := setInsert n s.doing } with
        doing := eraseA n (setInsert n s.doing) } : GenState) = s := by
    simp [eraseA_setInsert hdoing]
  constructor
  · intro nm hex
    simp only [generateUnionType, hnode, if_neg hdoing, hlist, hstate, hnames, hndone, hex]
  · intro hex
    simp only [generateUnionType, hnode, if_neg hdoing, hlist, hstate, hnames, hndone, hex,
      generateNewUnionName, emit]
    refine ⟨_, rfl, ?_, ?_, ?_, mkUnionName_fresh hInv, ?_⟩
    · simp [(pushPendingAccessors_fields _ _ _ _ _ _ _).2.2.1]
    · simp [(pushPendingAccessors_fields _ _ _ _ _ _ _).2.2.2.1]
    · simp [(pushPendingAccessors_fields _ _ _ _ _ _ _).2.2.2.2.2]
    · intro ts' nm' hl he
      exact mkUnionName_fresh hInv (he ▸ lookupA_mem_snd s.unions hl)

/-- C3 witness: a second `[int, string]` union occurrence in a state
where that key is already registered returns the stored name and
leaves the state untouched. -/
theorem claim_C3_witness :
    generateUnionType cfgTest graphIntStringUnion (3 + 1) 0 stateC3 =
      some (mkUnionName "test.avsc" 0, stateC3) := by
  have h := claim_C3 cfgTest graphIntStringUnion 0 [1, 2] 3 stateC3 ["int", "string"]
    rfl (by decide) (by decide) (by decide) (by decide) (by decide)
    (by
      intro p hp
      simp only [stateC3, initState] at hp
      simp only [List.mem_singleton] at hp
      subst hp
      exact ⟨0, Nat.zero_lt_one, rfl⟩)
  exact h.1 (mkUnionName "test.avsc" 0) (by decide)

/-! ### The registry invariant holds along every run

`TrackerInv` is assumed by `claim_C3`; here we discharge that
assumption for real runs: the empty initial state satisfies it and
every function of the type emitter preserves it (only
`generateNewUnionName` ever touches the registry fields). -/

theorem trackerInv_init (file : String) : TrackerInv file initState := by
  intro p hp
  simp [initState] at hp

theorem TrackerInv.congr {file : String} {s s' : GenState} (h : TrackerInv file s)
    (hu : s'.unions = s.unions) (hn : s'.unionNumber = s.unionNumber) :
    TrackerInv file s' := by
  intro p hp
  rw [hu] at hp
  obtain ⟨j, hj, he⟩ := h p hp
  exact ⟨j, hn ▸ hj, he⟩

theorem generateNewUnionName_inv {cfg : Cfg} {s : GenState} {ts : List String}
    (h : TrackerInv cfg.schemaFile s) :
    TrackerInv cfg.schemaFile (generateNewUnionName cfg s ts).2 := by
  intro p hp
  simp only [generateNewUnionName, List.mem_cons] at hp
  rcases hp with rfl | hp
  · exact ⟨s.unionNumber, by show s.unionNumber < s.unionNumber + 1; omega, rfl⟩
  · obtain ⟨j, hj, he⟩ := h p hp
    exact ⟨j, by show j < s.unionNumber + 1; omega, he⟩

/-- `recordTypedefPass` only appends typedef emissions and rewrites
the type strings; registry fields are untouched. -/
theorem recordTypedefPass_fields (g : Graph) :
    ∀ (fs : List (String × Nat)) (ts : List String) (s : GenState),
      (recordTypedefPass g fs ts s).2.unions = s.unions ∧
      (recordTypedefPass g fs ts s).2.unionNumber = s.unionNumber := by
  intro fs
  induction fs with
  | nil => intro ts s; simp [recordTypedefPass]
  | cons f fs ih =>
    intro ts s
    obtain ⟨fn, child⟩ := f
    cases ts with
    | nil => simp [recordTypedefPass]
    | cons t ts =>
      simp only [recordTypedefPass]
      by_cases hu : isUnionNode g child
      · by_cases ha : isArrayOfUnion g child
        · simpa [hu, ha, emit] using ih ts _
        · simpa [hu, ha, emit] using ih ts _
      · by_cases ha : isArrayOfUnion g child
        · simpa [hu, ha, emit] using ih ts _
        · simpa [hu, ha, emit] using ih ts _

theorem generateEnumType_fields (g : Graph) (n : Nat) (s : GenState) :
    (generateEnumType g n s).2.unions = s.unions ∧
    (generateEnumType g n s).2.unionNumber = s.unionNumber := by
  unfold generateEnumType
  cases g n <;> simp [emit]

/-- Every function of the type emitter preserves the registry
invariant, for every fuel value. -/
theorem trackerInv_preserved (cfg : Cfg) (g : Graph) : ∀ fuel : Nat,
    (∀ n s r s', generateType cfg g fuel n s = some (r, s') →
      TrackerInv cfg.schemaFile s → TrackerInv cfg.schemaFile s') ∧
    (∀ n s r s', doGenerateType cfg g fuel n s = some (r, s') →
      TrackerInv cfg.schemaFile s → TrackerInv cfg.schemaFile s') ∧
    (∀ n s r s', generateRecordType cfg g fuel n s = some (r, s') →
      TrackerInv cfg.schemaFile s → TrackerInv cfg.schemaFile s') ∧
    (∀ n s r s', generateUnionType cfg g fuel n s = some (r, s') →
      TrackerInv cfg.schemaFile s → TrackerInv cfg.schemaFile s') ∧
    (∀ n s r s', generateDeclaration cfg g fuel n s = some (r, s') →
      TrackerInv cfg.schemaFile s → TrackerInv cfg.schemaFile s') ∧
    (∀ ns s rs s', generateTypeList cfg g fuel ns s = some (rs, s') →
      TrackerInv cfg.schemaFile s → TrackerInv cfg.schemaFile s') ∧
    (∀ ns s rs s', generateDeclList cfg g fuel ns s = some (rs, s') →
      TrackerInv cfg.schemaFile s → TrackerInv cfg.schemaFile s') := by
  intro fuel
  induction fuel with
  | zero =>
    refine ⟨?_, ?_, ?_, ?_, ?_, ?_, ?_⟩ <;>
      · intro a b c d h
        simp only [generateType, doGenerateType, generateRecordType, generateUnionType,
          generateDeclaration, generateTypeList, generateDeclList] at h
        exact fun _ => Option.noConfusion h
  | succ fuel ih =>
    obtain ⟨ihT, ihD, ihR, ihU, ihDecl, ihTL, ihDL⟩ := ih
    have hT : ∀ n s r s', generateType cfg g (fuel + 1) n s = some (r, s') →
        TrackerInv cfg.schemaFile s → TrackerInv cfg.schemaFile s' := by
      intro n s r s' h hInv
      cases hl : lookupA (resolveId g n) s.done with
      | some v =>
        simp only [generateType, hl] at h
        injection h with h1
        injection h1 with h1a h1b
        exact h1b ▸ hInv
      | none =>
        simp only [generateType, hl] at h
        cases hd : doGenerateType cfg g fuel (resolveId g n) s with
        | none => simp only [hd] at h; exact Option.noConfusion h
        | some p =>
          obtain ⟨r1, s1⟩ := p
          simp only [hd] at h
          injection h with h1
          injection h1 with h1a h1b
          exact (ihD _ _ _ _ hd hInv).congr (by rw [← h1b]) (by rw [← h1b])
    have hU : ∀ n s r s', generateUnionType cfg g (fuel + 1) n s = some (r, s') →
        TrackerInv cfg.schemaFile s → TrackerInv cfg.schemaFile s' := by
      intro n s r s' h hInv
      cases hg : g n with
      | union bs =>
        simp only [generateUnionType, hg] at h
        have hbranch :
            ∀ ts1 s1,
              (if n ∈ s.doing then generateDeclList cfg g fuel bs s
               else
                match generateTypeList cfg g fuel bs
                    { s with doing := setInsert n s.doing } with
                | none => none
                | some (ts, s1) => some (ts, { s1 with doing := eraseA n s1.doing })) =
                some (ts1, s1) →
              TrackerInv cfg.schemaFile s1 := by
          intro ts1 s1 hb
          by_cases hdo : n ∈ s.doing
          · rw [if_pos hdo] at hb
            exact ihDL _ _ _ _ hb hInv
          · rw [if_neg hdo] at hb
            cases htl : generateTypeList cfg g fuel bs { s with doing := setInsert n s.doing } with
            | none => simp only [htl] at hb; exact Option.noConfusion hb
            | some p =>
              obtain ⟨ts2, s2⟩ := p
              simp only [htl] at hb
              injection hb with hb1
              injection hb1 with hb1a hb1b
              have hInv2 := ihTL _ _ _ _ htl (hInv.congr rfl rfl)
              exact hInv2.congr (by rw [← hb1b]) (by rw [← hb1b])
        cases hbr :
            (if n ∈ s.doing then generateDeclList cfg g fuel bs s
             else
              match generateTypeList cfg g fuel bs
                  { s with doing := setInsert n s.doing } with
              | none => none
              | some (ts, s1) => some (ts, { s1 with doing := eraseA n s1.doing })) with
        | none => simp only [hbr] at h; exact Option.noConfusion h
        | some p =>
          obtain ⟨types, s1⟩ := p
          simp only [hbr] at h
          have hInv1 := hbranch types s1 hbr
          cases hnm : cppNamesList g (fuel + 1) bs with
          | none => simp only [hnm] at h; exact Option.noConfusion h
          | some names =>
            simp only [hnm] at h
            cases hld : lookupA n s1.done with
            | some v =>
              simp only [hld] at h
              injection h with h1
              injection h1 with h1a h1b
              exact h1b ▸ hInv1
            | none =>
              simp only [hld] at h
              cases hex : getExistingUnionName s1.unions types with
              | some ex =>
                simp only [hex] at h
                injection h with h1
                injection h1 with h1a h1b
                exact h1b ▸ hInv1
              | none =>
                simp only [hex] at h
                injection h with h1
                injection h1 with h1a h1b
                have hInv2 : TrackerInv cfg.schemaFile
                    (generateNewUnionName cfg s1 types).2 :=
                  generateNewUnionName_inv hInv1
                have hInv3 : TrackerInv cfg.schemaFile
                    (emit (.unionDecl (generateNewUnionName cfg s1 types).1
                      (branchEnumNames names) types names)
                      (generateNewUnionName cfg s1 types).2) :=
                  hInv2.congr (by simp [emit]) (by simp [emit])
                have hpf := pushPendingAccessors_fields g
                  (generateNewUnionName cfg s1 types).1 types names bs 0
                  (emit (.unionDecl (generateNewUnionName cfg s1 types).1
                    (branchEnumNames names) types names)
                    (generateNewUnionName cfg s1 types).2)
                have hInv4 := hInv3.congr hpf.2.2.1 hpf.2.2.2.1
                exact hInv4.congr (by rw [← h1b]) (by rw [← h1b])
      | primNull => simp only [generateUnionType, hg] at h; injection h with h1; injection h1 with _ hb; exact hb ▸ hInv
      | primBool => simp only [generateUnionType, hg] at h; injection h with h1; injection h1 with _ hb; exact hb ▸ hInv
      | primInt => simp only [generateUnionType, hg] at h; injection h with h1; injection h1 with _ hb; exact hb ▸ hInv
      | primLong => simp only [generateUnionType, hg] at h; injection h with h1; injection h1 with _ hb; exact hb ▸ hInv
      | primFloat => simp only [generateUnionType, hg] at h; injection h with h1; injection h1 with _ hb; exact hb ▸ hInv
      | primDouble => simp only [generateUnionType, hg] at h; injection h with h1; injection h1 with _ hb; exact hb ▸ hInv
      | primString => simp only [generateUnionType, hg] at h; injection h with h1; injection h1 with _ hb; exact hb ▸ hInv
      | primBytes => simp only [generateUnionType, hg] at h; injection h with h1; injection h1 with _ hb; exact hb ▸ hInv
      | fixed nm sz => simp only [generateUnionType, hg] at h; injection h with h1; injection h1 with _ hb; exact hb ▸ hInv
      | enum nm sy => simp only [generateUnionType, hg] at h; injection h with h1; injection h1 with _ hb; exact hb ▸ hInv
      | record nm fs => simp only [generateUnionType, hg] at h; injection h with h1; injection h1 with _ hb; exact hb ▸ hInv
      | array e => simp only [generateUnionType, hg] at h; injection h with h1; injection h1 with _ hb; exact hb ▸ hInv
      | mapNode v => simp only [generateUnionType, hg] at h; injection h with h1; injection h1 with _ hb; exact hb ▸ hInv
      | symbolic t => simp only [generateUnionType, hg] at h; injection h with h1; injection h1 with _ hb; exact hb ▸ hInv
    have hR : ∀ n s r s', generateRecordType cfg g (fuel + 1) n s = some (r, s') →
        TrackerInv cfg.schemaFile s → TrackerInv cfg.schemaFile s' := by
      intro n s r s' h hInv
      cases hg : g n with
      | record name fields =>
        simp only [generateRecordType, hg] at h
        cases htl : generateTypeList cfg g fuel (fields.map Prod.snd) s with
        | none => simp only [htl] at h; exact Option.noConfusion h
        | some p =>
          obtain ⟨types, s1⟩ := p
          simp only [htl] at h
          have hInv1 := ihTL _ _ _ _ htl hInv
          cases hld : lookupA n s1.done with
          | some v =>
            simp only [hld] at h
            injection h with h1
            injection h1 with h1a h1b
            exact h1b ▸ hInv1
          | none =>
            simp only [hld] at h
            injection h with h1
            injection h1 with h1a h1b
            by_cases hnu : cfg.noUnion
            · rw [← h1b]
              simp only [hnu, if_pos rfl]
              exact hInv1.congr (by simp [emit]) (by simp [emit])
            · rw [← h1b]
              simp only [hnu, if_neg (by simp [hnu] : ¬ (cfg.noUnion = true))]
              have hrf := recordTypedefPass_fields g fields types s1
              exact hInv1.congr (by simp [emit, hrf.1]) (by simp [emit, hrf.2])
      | primNull => simp only [generateRecordType, hg] at h; injection h with h1; injection h1 with _ hb; exact hb ▸ hInv
      | primBool => simp only [generateRecordType, hg] at h; injection h with h1; injection h1 with _ hb; exact hb ▸ hInv
      | primInt => simp only [generateRecordType, hg] at h; injection h with h1; injection h1 with _ hb; exact hb ▸ hInv
      | primLong => simp only [generateRecordType, hg] at h; injection h with h1; injection h1 with _ hb; exact hb ▸ hInv
      | primFloat => simp only [generateRecordType, hg] at h; injection h with h1; injection h1 with _ hb; exact hb ▸ hInv
      | primDouble => simp only [generateRecordType, hg] at h; injection h with h1; injection h1 with _ hb; exact hb ▸ hInv
      | primString => simp only [generateRecordType, hg] at h; injection h with h1; injection h1 with _ hb; exact hb ▸ hInv
      | primBytes => simp only [generateRecordType, hg] at h; injection h with h1; injection h1 with _ hb; exact hb ▸ hInv
      | fixed nm sz => simp only [generateRecordType, hg] at h; injection h with h1; injection h1 with _ hb; exact hb ▸ hInv
      | enum nm sy => simp only [generateRecordType, hg] at h; injection h with h1; injection h1 with _ hb; exact hb ▸ hInv
      | union bs => simp only [generateRecordType, hg] at h; injection h with h1; injection h1 with _ hb; exact hb ▸ hInv
      | array e => simp only [generateRecordType, hg] at h; injection h with h1; injection h1 with _ hb; exact hb ▸ hInv
      | mapNode v => simp only [generateRecordType, hg] at h; injection h with h1; injection h1 with _ hb; exact hb ▸ hInv
      | symbolic t => simp only [generateRecordType, hg] at h; injection h with h1; injection h1 with _ hb; exact hb ▸ hInv
    have hD : ∀ n s r s', doGenerateType cfg g (fuel + 1) n s = some (r, s') →
        TrackerInv cfg.schemaFile s → TrackerInv cfg.schemaFile s' := by
      intro n s r s' h hInv
      cases hg : g n with
      | array e =>
        simp only [doGenerateType, hg] at h
        by_cases hdo : n ∈ s.doing
        · rw [if_pos hdo] at h
          cases hd : generateDeclaration cfg g fuel e s with
          | none => simp only [hd] at h; exact Option.noConfusion h
          | some p =>
            obtain ⟨dn, s1⟩ := p
            simp only [hd] at h
            injection h with h1
            injection h1 with _ hb
            exact hb ▸ ihDecl _ _ _ _ hd hInv
        · rw [if_neg hdo] at h
          cases hd : generateType cfg g fuel e { s with doing := setInsert n s.doing } with
          | none => simp only [hd] at h; exact Option.noConfusion h
          | some p =>
            obtain ⟨dn, s1⟩ := p
            simp only [hd] at h
            injection h with h1
            injection h1 with _ hb
            have := ihT _ _ _ _ hd (hInv.congr rfl rfl)
            exact (this.congr (by rw [← hb]) (by rw [← hb]))
      | mapNode v =>
        simp only [doGenerateType, hg] at h
        by_cases hdo : n ∈ s.doing
        · rw [if_pos hdo] at h
          cases hd : generateDeclaration cfg g fuel v s with
          | none => simp only [hd] at h; exact Option.noConfusion h
          | some p =>
            obtain ⟨dn, s1⟩ := p
            simp only [hd] at h
            injection h with h1
            injection h1 with _ hb
            exact hb ▸ ihDecl _ _ _ _ hd hInv
        · rw [if_neg hdo] at h
          cases hd : generateType cfg g fuel v { s with doing := setInsert n s.doing } with
          | none => simp only [hd] at h; exact Option.noConfusion h
          | some p =>
            obtain ⟨dn, s1⟩ := p
            simp only [hd] at h
            injection h with h1
            injection h1 with _ hb
            have := ihT _ _ _ _ hd (hInv.congr rfl rfl)
            exact (this.congr (by rw [← hb]) (by rw [← hb]))
      | record name fields =>
        simp only [doGenerateType, hg] at h
        exact ihR _ _ _ _ h hInv
      | enum name symbols =>
        simp only [doGenerateType, hg] at h
        injection h with h1
        have hfe := generateEnumType_fields g n s
        have hb : s' = (generateEnumType g n s).2 := by
          have := congrArg Prod.snd h1
          simpa using this.symm
        exact hb ▸ (hInv.congr hfe.1 hfe.2)
      | union bs =>
        simp only [doGenerateType, hg] at h
        exact ihU _ _ _ _ h hInv
      | symbolic t =>
        simp only [doGenerateType, hg] at h
        injection h with h1
        injection h1 with _ hb
        exact hb ▸ hInv
      | primNull =>
        simp only [doGenerateType, hg] at h
        cases hct : cppTypeOf cfg g s.done fuel n with
        | none => simp only [hct] at h; exact Option.noConfusion h
        | some t => simp only [hct] at h; injection h with h1; injection h1 with _ hb; exact hb ▸ hInv
      | primBool =>
        simp only [doGenerateType, hg] at h
        cases hct : cppTypeOf cfg g s.done fuel n with
        | none => simp only [hct] at h; exact Option.noConfusion h
        | some t => simp only [hct] at h; injection h with h1; injection h1 with _ hb; exact hb ▸ hInv
      | primInt =>
        simp only [doGenerateType, hg] at h
        cases hct : cppTypeOf cfg g s.done fuel n with
        | none => simp only [hct] at h; exact Option.noConfusion h
        | some t => simp only [hct] at h; injection h with h1; injection h1 with _ hb; exact hb ▸ hInv
      | primLong =>
        simp only [doGenerateType, hg] at h
        cases hct : cppTypeOf cfg g s.done fuel n with
        | none => simp only [hct] at h; exact Option.noConfusion h
        | some t => simp only [hct] at h; injection h with h1; injection h1 with _ hb; exact hb ▸ hInv
      | primFloat =>
        simp only [doGenerateType, hg] at h
        cases hct : cppTypeOf cfg g s.done fuel n with
        | none => simp only [hct] at h; exact Option.noConfusion h
        | some t => simp only [hct] at h; injection h with h1; injection h1 with _ hb; exact hb ▸ hInv
      | primDouble =>
        simp only [doGenerateType, hg] at h
        cases hct : cppTypeOf cfg g s.done fuel n with
        | none => simp only [hct] at h; exact Option.noConfusion h
        | some t => simp only [hct] at h; injection h with h1; injection h1 with _ hb; exact hb ▸ hInv
      | primString =>
        simp only [doGenerateType, hg] at h
        cases hct : cppTypeOf cfg g s.done fuel n with
        | none => simp only [hct] at h; exact Option.noConfusion h
        | some t => simp only [hct] at h; injection h with h1; injection h1 with _ hb; exact hb ▸ hInv
      | primBytes =>
        simp only [doGenerateType, hg] at h
        cases hct : cppTypeOf cfg g s.done fuel n with
        | none => simp only [hct] at h; exact Option.noConfusion h
        | some t => simp only [hct] at h; injection h with h1; injection h1 with _ hb; exact hb ▸ hInv
      | fixed nm sz =>
        simp only [doGenerateType, hg] at h
        cases hct : cppTypeOf cfg g s.done fuel n with
        | none => simp only [hct] at h; exact Option.noConfusion h
        | some t => simp only [hct] at h; injection h with h1; injection h1 with _ hb; exact hb ▸ hInv
    have hDecl : ∀ n s r s', generateDeclaration cfg g (fuel + 1) n s = some (r, s') →
        TrackerInv cfg.schemaFile s → TrackerInv cfg.schemaFile s' := by
      intro n s r s' h hInv
      cases hg : g (resolveId g n) with
      | array e =>
        simp only [generateDeclaration, hg] at h
        cases hd : generateDeclaration cfg g fuel e s with
        | none => simp only [hd] at h; exact Option.noConfusion h
        | some p =>
          obtain ⟨dn, s1⟩ := p
          simp only [hd] at h
          injection h with h1
          injection h1 with _ hb
          exact hb ▸ ihDecl _ _ _ _ hd hInv
      | mapNode v =>
        simp only [generateDeclaration, hg] at h
        cases hd : generateDeclaration cfg g fuel v s with
        | none => simp only [hd] at h; exact Option.noConfusion h
        | some p =>
          obtain ⟨dn, s1⟩ := p
          simp only [hd] at h
          injection h with h1
          injection h1 with _ hb
          exact hb ▸ ihDecl _ _ _ _ hd hInv
      | record name fields =>
        simp only [generateDeclaration, hg] at h
        cases hct : cppTypeOf cfg g s.done fuel (resolveId g n) with
        | none => simp only [hct] at h; exact Option.noConfusion h
        | some t =>
          simp only [hct] at h
          injection h with h1
          injection h1 with _ hb
          exact hb ▸ (hInv.congr (by simp [emit]) (by simp [emit]))
      | enum name symbols =>
        simp only [generateDeclaration, hg] at h
        injection h with h1
        have hfe := generateEnumType_fields g (resolveId g n) s
        have hb : s' = (generateEnumType g (resolveId g n) s).2 := by
          have := congrArg Prod.snd h1
          simpa using this.symm
        exact hb ▸ (hInv.congr hfe.1 hfe.2)
      | union bs =>
        simp only [generateDeclaration, hg] at h
        exact ihU _ _ _ _ h hInv
      | symbolic t =>
        simp only [generateDeclaration, hg] at h
        injection h with h1
        injection h1 with _ hb
        exact hb ▸ hInv
      | primNull =>
        simp only [generateDeclaration, hg] at h
        cases hct : cppTypeOf cfg g s.done fuel (resolveId g n) with
        | none => simp only [hct] at h; exact Option.noConfusion h
        | some t => simp only [hct] at h; injection h with h1; injection h1 with _ hb; exact hb ▸ hInv
      | primBool =>
        simp only [generateDeclaration, hg] at h
        cases hct : cppTypeOf cfg g s.done fuel (resolveId g n) with
        | none => simp only [hct] at h; exact Option.noConfusion h
        | some t => simp only [hct] at h; injection h with h1; injection h1 with _ hb; exact hb ▸ hInv
      | primInt =>
        simp only [generateDeclaration, hg] at h
        cases hct : cppTypeOf cfg g s.done fuel (resolveId g n) with
        | none => simp only [hct] at h; exact Option.noConfusion h
        | some t => simp only [hct] at h; injection h with h1; injection h1 with _ hb; exact hb ▸ hInv
      | primLong =>
        simp only [generateDeclaration, hg] at h
        cases hct : cppTypeOf cfg g s.done fuel (resolveId g n) with
        | none => simp only [hct] at h; exact Option.noConfusion h
        | some t => simp only [hct] at h; injection h with h1; injection h1 with _ hb; exact hb ▸ hInv
      | primFloat =>
        simp only [generateDeclaration, hg] at h
        cases hct : cppTypeOf cfg g s.done fuel (resolveId g n) with
        | none => simp only [hct] at h; exact Option.noConfusion h
        | some t => simp only [hct] at h; injection h with h1; injection h1 with _ hb; exact hb ▸ hInv
      | primDouble =>
        simp only [generateDeclaration, hg] at h
        cases hct : cppTypeOf cfg g s.done fuel (resolveId g n) with
        | none => simp only [hct] at h; exact Option.noConfusion h
        | some t => simp only [hct] at h; injection h with h1; injection h1 with _ hb; exact hb ▸ hInv
      | primString =>
        simp only [generateDeclaration, hg] at h
        cases hct : cppTypeOf cfg g s.done fuel (resolveId g n) with
        | none => simp only [hct] at h; exact Option.noConfusion h
        | some t => simp only [hct] at h; injection h with h1; injection h1 with _ hb; exact hb ▸ hInv
      | primBytes =>
        simp only [generateDeclaration, hg] at h
        cases hct : cppTypeOf cfg g s.done fuel (resolveId g n) with
        | none => simp only [hct] at h; exact Option.noConfusion h
        | some t => simp only [hct] at h; injection h with h1; injection h1 with _ hb; exact hb ▸ hInv
      | fixed nm sz =>
        simp only [generateDeclaration, hg] at h
        cases hct : cppTypeOf cfg g s.done fuel (resolveId g n) with
        | none => simp only [hct] at h; exact Option.noConfusion h
        | some t => simp only [hct] at h; injection h with h1; injection h1 with _ hb; exact hb ▸ hInv
    have hTL : ∀ ns s rs s', generateTypeList cfg g (fuel + 1) ns s = some (rs, s') →
        TrackerInv cfg.schemaFile s → TrackerInv cfg.schemaFile s' := by
      intro ns s rs s' h hInv
      cases ns with
      | nil =>
        simp only [generateTypeList] at h
        injection h with h1
        injection h1 with _ hb
        exact hb ▸ hInv
      | cons x xs =>
        simp only [generateTypeList] at h
        cases h1 : generateType cfg g fuel x s with
        | none => simp only [h1] at h; exact Option.noConfusion h
        | some p =>
          obtain ⟨t, s1⟩ := p
          simp only [h1] at h
          cases h2 : generateTypeList cfg g fuel xs s1 with
          | none => simp only [h2] at h; exact Option.noConfusion h
          | some q =>
            obtain ⟨ts, s2⟩ := q
            simp only [h2] at h
            injection h with h3
            injection h3 with _ hb
            exact hb ▸ ihTL _ _ _ _ h2 (ihT _ _ _ _ h1 hInv)
    have hDL : ∀ ns s rs s', generateDeclList cfg g (fuel + 1) ns s = some (rs, s') →
        TrackerInv cfg.schemaFile s → TrackerInv cfg.schemaFile s' := by
      intro ns s rs s' h hInv
      cases ns with
      | nil =>
        simp only [generateDeclList] at h
        injection h with h1
        injection h1 with _ hb
        exact hb ▸ hInv
      | cons x xs =>
        simp only [generateDeclList] at h
        cases h1 : generateDeclaration cfg g fuel x s with
        | none => simp only [h1] at h; exact Option.noConfusion h
        | some p =>
          obtain ⟨t, s1⟩ := p
          simp only [h1] at h
          cases h2 : generateDeclList cfg g fuel xs s1 with
          | none => simp only [h2] at h; exact Option.noConfusion h
          | some q =>
            obtain ⟨ts, s2⟩ := q
            simp only [h2] at h
            injection h with h3
            injection h3 with _ hb
            exact hb ▸ ihDL _ _ _ _ h2 (ihDecl _ _ _ _ h1 hInv)
    exact ⟨hT, hD, hR, hU, hDecl, hTL, hDL⟩

/-- Along any run from the initial state, the state a claim-C3
situation is evaluated in satisfies the registry invariant. -/
theorem trackerInv_reachable (cfg : Cfg) (g : Graph) (fuel n : Nat) (r : String)
    (s' : GenState) (h : generateType cfg g fuel n initState = some (r, s')) :
    TrackerInv cfg.schemaFile s' :=
  (trackerInv_preserved cfg g fuel).1 n initState r s' h
    (trackerInv_init cfg.schemaFile)

/-! ## Generated record codec semantics (claim C4) -/

theorem recordEncodeAux_spec {V : Type} :
    ∀ (v : List V) (i : Nat),
      (recordEncodeAux v i).map Prod.fst = List.range' i v.length ∧
      (recordEncodeAux v i).map Prod.snd = v := by
  intro v
  induction v with
  | nil => intro i; simp [recordEncodeAux]
  | cons x xs ih =>
    intro i
    simp [recordEncodeAux, List.range'_succ, (ih (i + 1)).1, (ih (i + 1)).2]

theorem resolvingLoop_spec {V : Type} (c : Nat) :
    ∀ (fo : List Nat) (v : List V) (d : RDecoder V),
      (∀ i ∈ fo, i < c) → c ≤ v.length →
      (recordDecodeResolvingLoop c fo v d).2.trace =
        d.trace ++ fo.map DecOp.readFieldOp ∧
      (recordDecodeResolvingLoop c fo v d).2.pos = d.pos + fo.length ∧
      (recordDecodeResolvingLoop c fo v d).2.vals = d.vals ∧
      (recordDecodeResolvingLoop c fo v d).1.length = v.length ∧
      (∀ j, j ∉ fo → (recordDecodeResolvingLoop c fo v d).1[j]? = v[j]?) ∧
      (fo.Nodup → ∀ k, (hk : k < fo.length) →
        (recordDecodeResolvingLoop c fo v d).1[fo.get ⟨k, hk⟩]? =
          some (d.vals (d.pos + k))) := by
  intro fo
  induction fo with
  | nil =>
    intro v d _ _
    refine ⟨by simp [recordDecodeResolvingLoop], by simp [recordDecodeResolvingLoop],
      by simp [recordDecodeResolvingLoop], by simp [recordDecodeResolvingLoop],
      fun j _ => by simp [recordDecodeResolvingLoop], fun _ k hk => by simp at hk⟩
  | cons i fo ih =>
    intro v d hin hcv
    have hic : i < c := hin i (List.mem_cons_self i fo)
    have hiv : i < v.length := lt_of_lt_of_le hic hcv
    have hstep :
        recordDecodeResolvingLoop c (i :: fo) v d =
          recordDecodeResolvingLoop c fo (v.set i (d.vals d.pos))
            { d with pos := d.pos + 1, trace := d.trace ++ [.readFieldOp i] } := by
      simp [recordDecodeResolvingLoop, hic, decodeFieldInto]
    obtain ⟨ih1, ih2, ih3, ih4, ih5, ih6⟩ :=
      ih (v.set i (d.vals d.pos))
        { d with pos := d.pos + 1, trace := d.trace ++ [.readFieldOp i] }
        (fun j hj => hin j (List.mem_cons_of_mem _ hj))
        (by simpa using hcv)
    refine ⟨?_, ?_, ?_, ?_, ?_, ?_⟩
    · rw [hstep, ih1]
      show (d.trace ++ [DecOp.readFieldOp i]) ++ fo.map DecOp.readFieldOp =
        d.trace ++ (i :: fo).map DecOp.readFieldOp
      simp
    · rw [hstep, ih2]
      show d.pos + 1 + fo.length = d.pos + (i :: fo).length
      simp only [List.length_cons]
      omega
    · rw [hstep, ih3]
    · rw [hstep, ih4]; simp
    · intro j hj
      rw [hstep, ih5 j (fun hc => hj (List.mem_cons_of_mem _ hc))]
      refine List.getElem?_set_ne (fun he => hj ?_)
      rw [← he]
      exact List.mem_cons_self i fo
    · intro hnd k hk
      rw [hstep]
      cases k with
      | zero =>
        have hnotin : i ∉ fo := (List.nodup_cons.1 hnd).1
        exact (ih5 i hnotin).trans (List.getElem?_set_self hiv)
      | succ k =>
        have hk2 : k < fo.length := by simpa using hk
        rw [List.get_cons_succ, ih6 (List.Nodup.of_cons hnd) k hk2]
        show some (d.vals (d.pos + 1 + k)) = some (d.vals (d.pos + (k + 1)))
        have harith : d.pos + 1 + k = d.pos + (k + 1) := by omega
        rw [harith]

theorem plainLoop_spec {V : Type} :
    ∀ (k i : Nat) (v : List V) (d : RDecoder V),
      i + k ≤ v.length →
      (recordDecodePlainLoop k i v d).2.trace =
        d.trace ++ (List.range' i k).map DecOp.readFieldOp ∧
      (recordDecodePlainLoop k i v d).2.pos = d.pos + k ∧
      (recordDecodePlainLoop k i v d).2.vals = d.vals ∧
      (recordDecodePlainLoop k i v d).1.length = v.length ∧
      (∀ j, j < i → (recordDecodePlainLoop k i v d).1[j]? = v[j]?) ∧
      (∀ j, j < k → (recordDecodePlainLoop k i v d).1[i + j]? =
        some (d.vals (d.pos + j))) := by
  intro k
  induction k with
  | zero =>
    intro i v d _
    refine ⟨by simp [recordDecodePlainLoop], by simp [recordDecodePlainLoop],
      by simp [recordDecodePlainLoop], by simp [recordDecodePlainLoop],
      fun j _ => by simp [recordDecodePlainLoop], fun j hj => by omega⟩
  | succ k ih =>
    intro i v d hle
    have hiv : i < v.length := by omega
    have hstep :
        recordDecodePlainLoop (k + 1) i v d =
          recordDecodePlainLoop k (i + 1) (v.set i (d.vals d.pos))
            { d with pos := d.pos + 1, trace := d.trace ++ [.readFieldOp i] } := by
      simp [recordDecodePlainLoop, decodeFieldInto]
    obtain ⟨ih1, ih2, ih3, ih4, ih5, ih6⟩ :=
      ih (i + 1) (v.set i (d.vals d.pos))
        { d with pos := d.pos + 1, trace := d.trace ++ [.readFieldOp i] }
        (by simp; omega)
    refine ⟨?_, ?_, ?_, ?_, ?_, ?_⟩
    · rw [hstep, ih1]
      show (d.trace ++ [DecOp.readFieldOp i]) ++ (List.range' (i + 1) k).map DecOp.readFieldOp =
        d.trace ++ (List.range' i (k + 1)).map DecOp.readFieldOp
      simp [List.range'_succ]
    · rw [hstep, ih2]
      show d.pos + 1 + k = d.pos + (k + 1)
      omega
    · rw [hstep, ih3]
    · rw [hstep, ih4]; simp
    · intro j hj
      rw [hstep, ih5 j (by omega)]
      exact List.getElem?_set_ne (by omega)
    · intro j hj
      rw [hstep]
      cases j with
      | zero =>
        exact (ih5 i (by omega)).trans (List.getElem?_set_self hiv)
      | succ j =>
        have h6 := ih6 j (by omega)
        rw [show i + (j + 1) = i + 1 + j by omega, h6]
        show some (d.vals (d.pos + 1 + j)) = some (d.vals (d.pos + (j + 1)))
        have harith : d.pos + 1 + j = d.pos + (j + 1) := by omega
        rw [harith]

/-- C4: for a generated record codec with `c` fields: encode writes
each field in declared order unconditionally; a non-resolving decode
reads fields in declared order; a resolving decode first requests the
field-order permutation and then decodes in exactly the permutation's
order, assigning the `k`-th decoded value to the field whose index is
the `k`-th permutation entry, and leaving fields outside the
permutation untouched; and for `c = 0` the resolving decode still
requests the permutation (and nothing else). -/
theorem claim_C4 {V : Type} (c : Nat) (v : List V) (d : RDecoder V)
    (hv : v.length = c) :
    ((recordEncode v).map Prod.fst = List.range c ∧
      (recordEncode v).map Prod.snd = v) ∧
    ((recordDecode c false v d).2.trace =
        d.trace ++ (List.range c).map DecOp.readFieldOp ∧
      ∀ j, j < c → (recordDecode c false v d).1[j]? = some (d.vals (d.pos + j))) ∧
    ((∀ i ∈ d.fo, i < c) →
      (recordDecode c true v d).2.trace =
        d.trace ++ DecOp.fieldOrderOp :: d.fo.map DecOp.readFieldOp ∧
      (d.fo.Nodup → ∀ k, (hk : k < d.fo.length) →
        (recordDecode c true v d).1[d.fo.get ⟨k, hk⟩]? = some (d.vals (d.pos + k))) ∧
      (∀ j, j ∉ d.fo → (recordDecode c true v d).1[j]? = v[j]?)) ∧
    (c = 0 → (recordDecode 0 true v d).1 = v ∧
      (recordDecode 0 true v d).2.trace = d.trace ++ [DecOp.fieldOrderOp]) := by
  refine ⟨?_, ?_, ?_, ?_⟩
  · have h := recordEncodeAux_spec v 0
    rw [recordEncode, h.1, h.2, hv, List.range_eq_range']
    exact ⟨rfl, rfl⟩
  · by_cases hc : c = 0
    · subst hc
      simp [recordDecode]
    · obtain ⟨h1, _, _, _, _, h6⟩ :=
        plainLoop_spec c 0 v d (by omega)
      simp only [recordDecode, if_neg hc, if_neg (Bool.false_ne_true)]
      constructor
      · rw [h1, List.range_eq_range']
      · intro j hj
        have := h6 j hj
        simpa using this
  · intro hfo
    by_cases hc : c = 0
    · subst hc
      have hempty : d.fo = [] := by
        cases hfe : d.fo with
        | nil => rfl
        | cons a t => exact absurd (hfo a (hfe ▸ List.mem_cons_self a t)) (by omega)
      refine ⟨?_, ?_, ?_⟩
      · simp [recordDecode, fieldOrderCall, hempty]
      · intro _ k hk
        rw [hempty] at hk
        simp at hk
      · intro j _
        simp [recordDecode]
    · obtain ⟨h1, _, h3, _, h5, h6⟩ :=
        resolvingLoop_spec c d.fo v
          { d with trace := d.trace ++ [DecOp.fieldOrderOp] } hfo (by omega)
      have hunf :
          recordDecode c true v d =
            recordDecodeResolvingLoop c d.fo v
              { d with trace := d.trace ++ [DecOp.fieldOrderOp] } := by
        simp [recordDecode, if_neg hc, fieldOrderCall]
      refine ⟨?_, ?_, ?_⟩
      · rw [hunf, h1]; simp
      · intro hnd k hk
        rw [hunf, h6 hnd k hk]
      · intro j hj
        rw [hunf, h5 j hj]
  · intro _
    simp [recordDecode, fieldOrderCall]

/-- C4 witness: three fields `[a, b, c]` with resolving permutation
`[2, 0, 1]`: the decoder is asked for the order, then fields are read
as `c`, `a`, `b`, and the values land on the right fields
(stream values 100, 101, 102 end up as `[101, 102, 100]`). -/
theorem claim_C4_witness :
    ([0, 0, 0] : List Nat).length = 3 ∧
    (recordDecode 3 true ([0, 0, 0] : List Nat) dC4).2.trace =
      dC4.trace ++ DecOp.fieldOrderOp :: dC4.fo.map DecOp.readFieldOp ∧
    (recordDecode 3 true ([0, 0, 0] : List Nat) dC4).1 = [101, 102, 100] := by
  exact ⟨by decide, ((claim_C4 3 [0, 0, 0] dC4 (by decide)).2.2.1 (by decide)).1,
    by decide⟩

/-! ## Generated union codec semantics (claim C5) -/

/-- C5: for a generated union codec with `c` branches: decode reads a
tag; any tag at or beyond `c` raises the "Union index too big" decode
error and stores nothing; a tag below `c` selecting the null branch
stores the empty value after only a `decodeNull` (no payload decode
operation); any other tag below `c` decodes the payload with the
branch's codec and stores it as the active value.  Encode writes the
active branch's 0-based tag first, followed by the null marker for the
null branch or the delegated payload encoding otherwise. -/
theorem claim_C5 {V : Type} (branches : List Bool) (tag : Nat) (payload : V)
    (v : UVal V) :
    (branches.length ≤ tag →
      unionDecode branches tag payload =
        (.error "Union index too big" : Except String (UVal V × List (UOp V)))) ∧
    (tag < branches.length → branches.getD tag false = true →
      unionDecode branches tag payload =
        .ok ({ idx := tag, val := none }, [.decodeUnionIndexOp tag, .decodeNullOp])) ∧
    (tag < branches.length → branches.getD tag false = false →
      unionDecode branches tag payload =
        .ok ({ idx := tag, val := some payload },
          [.decodeUnionIndexOp tag, .decodeBranchOp tag payload])) ∧
    ((unionEncode branches v).head? = some (.unionIndexTok v.idx)) ∧
    (v.idx < branches.length → branches.getD v.idx false = true →
      unionEncode branches v = [.unionIndexTok v.idx, .nullTok]) ∧
    (v.idx < branches.length → branches.getD v.idx false = false →
      unionEncode branches v = [.unionIndexTok v.idx, .payloadTok v.idx v.val]) := by
  refine ⟨?_, ?_, ?_, ?_, ?_, ?_⟩
  · intro h
    simp [unionDecode, h]
  · intro h hb
    rw [List.getD_eq_getElem branches false h] at hb
    have h2 : ¬ branches.length ≤ tag := by omega
    simp [unionDecode, h2, List.getElem?_eq_getElem h, hb]
  · intro h hb
    rw [List.getD_eq_getElem branches false h] at hb
    have h2 : ¬ branches.length ≤ tag := by omega
    simp [unionDecode, h2, List.getElem?_eq_getElem h, hb]
  · simp [unionEncode]
  · intro h hb
    rw [List.getD_eq_getElem branches false h] at hb
    simp [unionEncode, h, hb]
  · intro h hb
    rw [List.getD_eq_getElem branches false h] at hb
    simp [unionEncode, h, hb]

/-- C5 witness: the spec §8 union `[int, string]` (two non-null
branches): decoding tag 2 fails with the invalid-union-index error, and
decoding tag 0 stores the payload; encoding a value with active branch
0 writes the tag first, then the payload. -/
theorem claim_C5_witness :
    ([false, false] : List Bool).length ≤ 2 ∧
    unionDecode [false, false] 2 (5 : Nat) =
      (.error "Union index too big" : Except String (UVal Nat × List (UOp Nat))) ∧
    unionDecode [false, false] 0 (5 : Nat) =
      .ok ({ idx := 0, val := some 5 }, [.decodeUnionIndexOp 0, .decodeBranchOp 0 5]) ∧
    unionEncode [false, false] ({ idx := 0, val := some 5 } : UVal Nat) =
      [.unionIndexTok 0, .payloadTok 0 (some 5)] := by
  refine ⟨by decide,
    (claim_C5 [false, false] 2 (5 : Nat) ⟨0, some 5⟩).1 (by decide),
    (claim_C5 [false, false] 0 (5 : Nat) ⟨0, some 5⟩).2.2.1 (by decide) (by decide),
    (claim_C5 [false, false] 0 (5 : Nat) ⟨0, some 5⟩).2.2.2.2.2 (by decide) (by decide)⟩

/-! ## Generated enumeration codec semantics (claim C6) -/

/-- C6: for a generated enumeration codec over nonempty `symbols` with
valid ordinals `0 .. symbols.length - 1`: encode errors exactly when
the ordinal exceeds the maximum and otherwise writes the ordinal;
decode errors exactly when the read ordinal exceeds the maximum and
otherwise yields the value at that ordinal, which indexes a symbol. -/
theorem claim_C6 (symbols : List String) (hne : symbols ≠ []) (v i : Nat) :
    (enumEncode symbols v =
        .error "enum value is out of bound and cannot be encoded" ↔
      symbols.length - 1 < v) ∧
    (v ≤ symbols.length - 1 → enumEncode symbols v = .ok v) ∧
    (enumDecode symbols i =
        .error "enum value is out of bound and cannot be decoded" ↔
      symbols.length - 1 < i) ∧
    (i ≤ symbols.length - 1 →
      enumDecode symbols i = .ok i ∧ symbols[i]?.isSome) := by
  have hlen : 0 < symbols.length := List.length_pos.2 hne
  refine ⟨?_, ?_, ?_, ?_⟩
  · constructor
    · intro h
      by_contra hlt
      simp [enumEncode, hlt] at h
    · intro h
      simp [enumEncode, h]
  · intro h
    simp [enumEncode]
    omega
  · constructor
    · intro h
      by_contra hlt
      simp [enumDecode, hlt] at h
    · intro h
      simp [enumDecode, h]
  · intro h
    refine ⟨by simp [enumDecode]; omega, ?_⟩
    rw [List.getElem?_eq_getElem (by omega)]
    rfl

/-- C6 witness: symbols `[A, B, C]`: encoding ordinal 2 succeeds and
writes 2, decoding 2 succeeds, decoding 3 fails with the out-of-range
decode error. -/
theorem claim_C6_witness :
    (["A", "B", "C"] : List String) ≠ [] ∧
    enumEncode ["A", "B", "C"] 2 = .ok 2 ∧
    enumDecode ["A", "B", "C"] 2 = .ok 2 ∧
    enumDecode ["A", "B", "C"] 3 =
      .error "enum value is out of bound and cannot be decoded" := by
  refine ⟨by decide,
    (claim_C6 ["A", "B", "C"] (by decide) 2 2).2.1 (by decide),
    ((claim_C6 ["A", "B", "C"] (by decide) 2 2).2.2.2 (by decide)).1,
    (claim_C6 ["A", "B", "C"] (by decide) 2 3).2.2.1.2 (by decide)⟩

/-! ## Include-guard reuse (claim C8) -/

theorem trimLine_eq_self {l : List Char}
    (hhead : ∀ c, l.head? = some c → isSpaceClassic c = false)
    (hlast : ∀ c, l.getLast? = some c → isSpaceClassic c = false) :
    trimLine l = l := by
  cases l with
  | nil => rfl
  | cons a as =>
    have ha := hhead a rfl
    unfold trimLine
    rw [List.dropWhile_cons, if_neg (by simp [ha])]
    cases hrev : (a :: as).reverse with
    | nil => simp at hrev
    | cons b bs =>
      have hb : (a :: as).getLast? = some b := by
        rw [← List.head?_reverse, hrev]
        rfl
      have hbs := hlast b hb
      rw [List.dropWhile_cons, if_neg (by simp [hbs]), ← hrev,
        List.reverse_reverse]

/-- C8 (amended): if the existing output file's first two lines are
exactly `#ifndef TOKEN` and `#define TOKEN` for the same nonempty
TOKEN (with no trailing whitespace), the scan returns TOKEN and the
regenerated file reuses it; when the scan instead yields the empty
string, `generate` falls back to the fresh randomly derived token.
(The claim's "leading non-blank lines" condition is not what the scan
implements: a blank line between the pair clears the candidate, and a
pair found after other content is still reused — see the
counterexample.) -/
theorem claim_C8 (t : List Char) (rest : List (List Char)) (gs fresh : String)
    (hne : t ≠ [])
    (hlast : t.getLast?.all (fun c => !isSpaceClassic c) = true) :
    readGuard (("#ifndef ".data ++ t) :: ("#define ".data ++ t) :: rest) = t ∧
    chosenGuard "" fresh = fresh ∧
    (gs ≠ "" → chosenGuard gs fresh = gs) := by
  obtain ⟨c, hc⟩ : ∃ c, t.getLast? = some c := by
    cases ht : t.getLast? with
    | none =>
      rw [List.getLast?_eq_none_iff] at ht
      exact absurd ht hne
    | some c => exact ⟨c, rfl⟩
  have hcs : isSpaceClassic c = false := by
    rw [hc] at hlast
    simpa using hlast
  have htrim1 : trimLine ("#ifndef ".data ++ t) = "#ifndef ".data ++ t := by
    apply trimLine_eq_self
    · intro d hd
      have hh : ("#ifndef ".data ++ t).head? = some '#' := rfl
      rw [hh] at hd
      cases hd
      decide
    · intro d hd
      have hl : ("#ifndef ".data ++ t).getLast? = some c := by
        rw [List.getLast?_append, hc]
        rfl
      rw [hl] at hd
      cases hd
      exact hcs
  have htrim2 : trimLine ("#define ".data ++ t) = "#define ".data ++ t := by
    apply trimLine_eq_self
    · intro d hd
      have hh : ("#define ".data ++ t).head? = some '#' := rfl
      rw [hh] at hd
      cases hd
      decide
    · intro d hd
      have hl : ("#define ".data ++ t).getLast? = some c := by
        rw [List.getLast?_append, hc]
        rfl
      rw [hl] at hd
      cases hd
      exact hcs
  have hlen1 : ("#ifndef ".data : List Char).length = 8 := by decide
  have hlen2 : ("#define ".data : List Char).length = 8 := by decide
  have htake1 : ("#ifndef ".data ++ t).take 8 = ifndefPat := by
    rw [← hlen1]
    exact List.take_left _ _
  have hdrop1 : ("#ifndef ".data ++ t).drop 8 = t := by
    rw [← hlen1]
    exact List.drop_left _ _
  have htake2 : ("#define ".data ++ t).take 8 = definePat := by
    rw [← hlen2]
    exact List.take_left _ _
  have hdrop2 : ("#define ".data ++ t).drop 8 = t := by
    rw [← hlen2]
    exact List.drop_left _ _
  refine ⟨?_, by simp [chosenGuard], fun h => by simp [chosenGuard, h]⟩
  show readGuardLoop _ [] = t
  rw [readGuardLoop]
  simp only [htrim1, if_pos rfl, htake1, hdrop1]
  rw [readGuardLoop]
  simp only [htrim2, if_neg hne, htake2, hdrop2, if_pos rfl]
  simp

/-- C8 witness: a file starting with `#ifndef FOO` / `#define FOO`
keeps the token `FOO`. -/
theorem claim_C8_witness :
    ("FOO".data ≠ ([] : List Char)) ∧
    readGuard (("#ifndef ".data ++ "FOO".data) ::
      ("#define ".data ++ "FOO".data) :: []) = "FOO".data ∧
    chosenGuard "" (guardToken "out.hh" 7) = guardToken "out.hh" 7 := by
  have h := claim_C8 "FOO".data [] "X" (guardToken "out.hh" 7) (by decide) (by decide)
  exact ⟨by decide, h.1, h.2.1⟩

/-- C8 counterexample: the leading non-blank lines of the file
`["#ifndef FOO", "", "#define FOO"]` form a matching pair, yet the
scan clears the candidate at the blank line, returns the empty string,
and the regeneration uses a fresh token instead of reusing `FOO` —
refuting the claim as stated. -/
theorem claim_C8_counterexample :
    readGuard ["#ifndef FOO".data, [], "#define FOO".data] = [] ∧
    chosenGuard ⟨readGuard ["#ifndef FOO".data, [], "#define FOO".data]⟩
      (guardToken "out.hh" 12345) = guardToken "out.hh" 12345 := by
  constructor
  · decide
  · decide

/-! ## Main's input/output handling (claim C9) -/

/-- C9 (amended): both the input and the output path are required:
after successful option parsing with neither help nor version
requested, a missing input or output path makes `main` print the
usage message and exit 1 (it never reads standard input or writes
standard output: every reached `run` outcome has nonempty input and
output paths, so the stdin/stdout fallback branches at lines 1003-1016
are dead code). -/
theorem claim_C9 (args : List String) :
    (∀ opts, parseArgs args defaultOptions = some opts →
      opts.helpRequested = false → opts.versionRequested = false →
      opts.inputFile = "" ∨ opts.outputFile = "" →
      mainOutcome args = .missingFiles) ∧
    (∀ i o ns p nu, mainOutcome args = .run i o ns p nu → i ≠ "" ∧ o ≠ "") := by
  constructor
  · intro opts hp hh hv hio
    simp only [mainOutcome, hp]
    rw [if_neg (by simp [hh]), if_neg (by simp [hv]), if_pos hio]
  · intro i o ns p nu h
    cases hp : parseArgs args defaultOptions with
    | none =>
      simp only [mainOutcome, hp] at h
      exact MainOutcome.noConfusion h
    | some opts =>
      simp only [mainOutcome, hp] at h
      by_cases hh : opts.helpRequested = true
      · rw [if_pos hh] at h
        exact MainOutcome.noConfusion h
      · rw [if_neg hh] at h
        by_cases hv : opts.versionRequested = true
        · rw [if_pos hv] at h
          exact MainOutcome.noConfusion h
        · rw [if_neg hv] at h
          by_cases hio : opts.inputFile = "" ∨ opts.outputFile = ""
          · rw [if_pos hio] at h
            exact MainOutcome.noConfusion h
          · rw [if_neg hio] at h
            push_neg at hio
            cases hn : normalizeIncludePref opts.includePref with
            | none =>
              rw [hn] at h
              exact MainOutcome.noConfusion h
            | some pr =>
              rw [hn] at h
              injection h with h1 h2 h3 h4 h5
              exact ⟨h1 ▸ hio.1, h2 ▸ hio.2⟩

/-- C9 witness: `avrogencpp -o out.hh` (no input path) exits through
the missing-files usage path. -/
theorem claim_C9_witness :
    parseArgs ["-o", "out.hh"] defaultOptions =
      some { defaultOptions with outputFile := "out.hh" } ∧
    mainOutcome ["-o", "out.hh"] = .missingFiles := by
  refine ⟨by decide, ?_⟩
  exact (claim_C9 ["-o", "out.hh"]).1 { defaultOptions with outputFile := "out.hh" }
    (by decide) (by decide) (by decide) (by decide)

/-- C9 counterexample: with the input option absent (`-o out.hh`
only), the program does not read standard input and exit 0 as claimed:
it takes the missing-files path (usage message, exit 1) and no
generation run happens at all. -/
theorem claim_C9_counterexample :
    mainOutcome ["-o", "out.hh"] = .missingFiles ∧
    ∀ i o ns p nu, mainOutcome ["-o", "out.hh"] ≠ .run i o ns p nu := by
  refine ⟨by decide, ?_⟩
  intro i o ns p nu h
  rw [show mainOutcome ["-o", "out.hh"] = .missingFiles from by decide] at h
  exact MainOutcome.noConfusion h

/-! ## Include-prefix normalization safety (claim C10) -/

/-- C10: the include-prefix normalization is safe exactly on nonempty
values: `"-"` clears the prefix, any other nonempty value gets a
trailing `/` ensured; the empty value — which `parseArgs` accepts via
`-p ""` — dereferences the last character of an empty string
(out-of-bounds), reachable in `main` when input and output are both
supplied. -/
theorem claim_C10 (s : String) :
    (s ≠ "" → (normalizeIncludePref s).isSome) ∧
    (normalizeIncludePref "-" = some "") ∧
    (s ≠ "-" → s.data.getLast? = some '/' → normalizeIncludePref s = some s) ∧
    (s ≠ "-" → ∀ c, s.data.getLast? = some c → c ≠ '/' →
      normalizeIncludePref s = some (s ++ "/")) ∧
    (∀ r, s ≠ "-" → normalizeIncludePref s = some r → r.data.getLast? = some '/') ∧
    (normalizeIncludePref "" = none) ∧
    parseArgs ["-p", "", "-i", "in.avsc", "-o", "out.hh"] defaultOptions =
      some { defaultOptions with
              includePref := ""
              inputFile := "in.avsc"
              outputFile := "out.hh" } ∧
    mainOutcome ["-p", "", "-i", "in.avsc", "-o", "out.hh"] = .outOfBounds := by
  refine ⟨?_, by decide, ?_, ?_, ?_, by decide, by decide, by decide⟩
  · intro hs
    by_cases hd : s = "-"
    · simp [normalizeIncludePref, hd]
    · have hdata : s.data ≠ [] := by
        intro hc
        exact hs (string_data_inj hc)
      obtain ⟨c, hc⟩ : ∃ c, s.data.getLast? = some c := by
        cases ht : s.data.getLast? with
        | none =>
          rw [List.getLast?_eq_none_iff] at ht
          exact absurd ht hdata
        | some c => exact ⟨c, rfl⟩
      simp [normalizeIncludePref, hd, hc]
  · intro hd hc
    simp [normalizeIncludePref, hd, hc]
  · intro hd c hc hcne
    simp [normalizeIncludePref, hd, hc, hcne]
  · intro r hd hr
    cases hc : s.data.getLast? with
    | none =>
      have hnone : normalizeIncludePref s = none := by
        simp [normalizeIncludePref, hd, hc]
      rw [hnone] at hr
      exact Option.noConfusion hr
    | some c =>
      by_cases hcd : c = '/'
      · have hnorm : normalizeIncludePref s = some s := by
          simp [normalizeIncludePref, hd, hc, hcd]
        rw [hnorm] at hr
        injection hr with hr1
        rw [← hr1]
        rw [hcd] at hc
        exact hc
      · have hnorm : normalizeIncludePref s = some (s ++ "/") := by
          simp [normalizeIncludePref, hd, hc, hcd]
        rw [hnorm] at hr
        injection hr with hr1
        rw [← hr1]
        show (s.data ++ "/".data).getLast? = some '/'
        exact List.getLast?_concat _

/-- C10 witness: the default prefix `avro` normalizes to `avro/`;
the empty prefix is the out-of-bounds case. -/
theorem claim_C10_witness :
    ("avro" : String) ≠ "" ∧
    normalizeIncludePref "avro" = some "avro/" ∧
    normalizeIncludePref "" = none := by
  have h := claim_C10 "avro"
  refine ⟨by decide, ?_, h.2.2.2.2.2.1⟩
  exact (h.2.2.2.1 (by decide) 'o' (by decide) (by decide)).trans (by decide)

end Avrogencpp
